import Mathlib

/-!
Formal model of the vault-safe-access subsystem of the command-center
repository: the path utilities (`src/lib/utils/paths.ts`), the hot-path
vault scanner (`src/lib/obsidian/scanner.ts`) and the atomic safe
writer (`src/lib/safety/safe-write.ts`), together with theorems
checking the specification's claims about them.

Strings are modelled as Lean strings (sequences of characters).  The
path functions mirror the Node `path` module as the code uses it on its
Windows-first deployment: both `/` and `\` act as separators, path
resolution is modelled against an explicit current working directory
`cwd` (Node's `process.cwd()`), and drive letters are not modelled (the
resolved namespace is rooted at `/`).
-/

/-! ## Character and string helpers -/

/-- A character is a path separator (`/` or `\`). -/
def isSep (c : Char) : Bool := c == '/' || c == '\\'

/-- Split a character list into the chunks between path separators
(`acc` holds the current chunk, reversed). -/
def splitSegsAux : List Char → List Char → List (List Char)
  | [], acc => [acc.reverse]
  | c :: rest, acc =>
    if isSep c then acc.reverse :: splitSegsAux rest []
    else splitSegsAux rest (c :: acc)

/-- Split a string on path separators. -/
def splitSegs (s : String) : List (List Char) := splitSegsAux s.data []

/-- One step of absolute-path segment resolution: drop empty and `.`
segments, let `..` pop the previous segment (no-op at the root). -/
def cleanAbsStep (acc : List (List Char)) (seg : List Char) : List (List Char) :=
  if seg = [] ∨ seg = ['.'] then acc
  else if seg = ['.', '.'] then acc.dropLast
  else acc ++ [seg]

/-- Resolve `.`, `..` and empty segments for an absolute path. -/
def cleanSegsAbs (segs : List (List Char)) : List (List Char) :=
  segs.foldl cleanAbsStep []

/-- One step of relative-path segment resolution: as for absolute
paths, except `..` segments that would escape are kept. -/
def cleanRelStep (acc : List (List Char)) (seg : List Char) : List (List Char) :=
  if seg = [] ∨ seg = ['.'] then acc
  else if seg = ['.', '.'] then
    (if acc = [] ∨ acc.getLast? = some ['.', '.'] then acc ++ [seg] else acc.dropLast)
  else acc ++ [seg]

/-- Resolve `.`, `..` and empty segments for a relative path. -/
def cleanSegsRel (segs : List (List Char)) : List (List Char) :=
  segs.foldl cleanRelStep []

/-- Join segments with `/` (no leading or trailing separator). -/
def iData : List (List Char) → List Char
  | [] => []
  | [s] => s
  | s :: rest :: more => s ++ '/' :: iData (rest :: more)

/-- Does the string start with a path separator? -/
def startsWithSep (s : String) : Bool :=
  match s.data with
  | [] => false
  | c :: _ => isSep c

/-- Normalize an absolute path string: split on separators, resolve
dot segments, re-join rooted at `/`. -/
def resolveAbs (s : String) : String := ⟨'/' :: iData (cleanSegsAbs (splitSegs s))⟩

/-- Model of Node `path.resolve` with a single argument, taken against
an explicit current working directory. -/
def jsResolve (cwd p : String) : String :=
  if startsWithSep p then resolveAbs p else resolveAbs (cwd ++ "/" ++ p)

/-- Model of `.replace(/\\/g, "/")`: rewrite every backslash to a
forward slash. -/
def toSlashes (s : String) : String :=
  ⟨s.data.map (fun c => if c == '\\' then '/' else c)⟩

/-- Model of `.replace(/\/$/, "")`: remove one trailing forward
slash if present. -/
def stripTrailingSlash (s : String) : String :=
  if s.data.getLast? = some '/' then ⟨s.data.dropLast⟩ else s

/-- Model of JS `String.prototype.toLowerCase`: lower-case character by
character. -/
def jsToLower (s : String) : String := ⟨s.data.map Char.toLower⟩

/-- Model of JS `String.prototype.startsWith`. -/
def jsStartsWith (s pre : String) : Bool := pre.data.isPrefixOf s.data

/-- Model of JS `String.prototype.endsWith`. -/
def jsEndsWith (s suf : String) : Bool := suf.data.isSuffixOf s.data

/-! ## PathGuard (`src/lib/utils/paths.ts`) -/

/-- `normalizePath` from `src/lib/utils/paths.ts`: resolve to an
absolute path, convert backslashes to forward slashes, remove one
trailing slash. -/
def normalizePath (cwd p : String) : String :=
  stripTrailingSlash (toSlashes (jsResolve cwd p))

/-- `isWithinRoot` from `src/lib/utils/paths.ts`: case-insensitive
containment check after normalizing both paths. -/
def isWithinRoot (cwd filePath rootPath : String) : Bool :=
  let normalFile := jsToLower (normalizePath cwd filePath)
  let normalRoot := jsToLower (normalizePath cwd rootPath)
  normalFile == normalRoot || jsStartsWith normalFile (normalRoot ++ "/")

/-! ## Node `path` helpers used by the writer and the scanner -/

/-- Model of Node `path.dirname`. -/
def dirname (p : String) : String :=
  let rev := p.data.reverse
  let base := rev.takeWhile (fun c => !isSep c)
  match rev.drop base.length with
  | [] => "."
  | [_] => "/"
  | _ :: rest => ⟨rest.reverse⟩

/-- Model of Node `path.basename` without a suffix argument. -/
def basenameStr (p : String) : String :=
  ⟨(p.data.reverse.takeWhile (fun c => !isSep c)).reverse⟩

/-- Model of Node `path.extname`: the final dot-led suffix of the base
name; empty when the base name has no dot or only a leading dot. -/
def extname (p : String) : String :=
  let b := (basenameStr p).data
  let after := b.reverse.takeWhile (fun c => c ≠ '.')
  if after.length = b.length then ""
  else if b.length - after.length - 1 = 0 then ""
  else ⟨b.drop (b.length - after.length - 1)⟩

/-- Model of Node `path.basename(p, ext)`: the suffix `ext` is removed
when it is a proper suffix of the base name. -/
def basenameExt (p ext : String) : String :=
  let b := basenameStr p
  if ext ≠ "" ∧ ext.data.isSuffixOf b.data ∧ ext.length < b.length then
    ⟨b.data.take (b.data.length - ext.data.length)⟩
  else b

/-- Model of Node `path.join` on two parts: concatenate with `/` and
normalize without resolving against the cwd. -/
def joinP (a b : String) : String :=
  let s := a ++ "/" ++ b
  if startsWithSep s then ⟨'/' :: iData (cleanSegsAbs (splitSegs s))⟩
  else
    let segs := cleanSegsRel (splitSegs s)
    if segs = [] then "." else ⟨iData segs⟩

/-! ## Decimal rendering of backup indices -/

/-- Decimal digits of a natural number, most significant first.  Fuel
recursion keeps the definition structural so concrete runs evaluate. -/
def toDecimalAux : Nat → Nat → List Char
  | 0, _ => []
  | fuel + 1, n =>
    if n = 0 then [] else toDecimalAux fuel (n / 10) ++ [Nat.digitChar (n % 10)]

/-- Decimal rendering of a natural number (the JS number-to-string
conversion used in the backup-name template literal). -/
def natToStr (n : Nat) : String := if n = 0 then "0" else ⟨toDecimalAux (n + 1) n⟩

/-- Numeric value of a decimal digit character. -/
def charVal (c : Char) : Nat := c.toNat - '0'.toNat

/-- Value of a most-significant-first decimal digit string. -/
def valDec (l : List Char) : Nat := l.foldl (fun a c => a * 10 + charVal c) 0

/-! ## Clean absolute paths: the shape of `normalizePath` outputs -/

/-- A segment free of separator characters. -/
def SepFree (s : List Char) : Prop := ∀ c ∈ s, isSep c = false

/-- A clean path segment: nonempty, not a dot segment, separator
free. -/
def CleanSeg (s : List Char) : Prop :=
  s ≠ [] ∧ s ≠ ['.'] ∧ s ≠ ['.', '.'] ∧ SepFree s

/-- A clean absolute path: a leading `/` followed by clean segments
joined with `/`. -/
def IsClean (p : String) : Prop :=
  ∃ segs : List (List Char), segs ≠ [] ∧ (∀ s ∈ segs, CleanSeg s) ∧ p.data = '/' :: iData segs

/-! ## HotPathScanner (`src/lib/obsidian/scanner.ts`) -/

/-- Stat record for a vault file: modification time (ms since epoch)
and size in bytes. -/
structure FStat where
  mtime : Int
  size : Nat
deriving DecidableEq

/-- A directory entry as returned by `readdir` with file types. -/
structure DirEnt where
  name : String
  isFile : Bool
deriving DecidableEq

/-- The filesystem as the scanner observes it: directory listings and
per-file stats; `none` models a thrown error (missing or
inaccessible). -/
structure VaultFS where
  readdir : String → Option (List DirEnt)
  stat : String → Option FStat

/-- One recency-scan rule: directory plus maximum file age in days. -/
structure RecencyRule where
  path : String
  max_age_days : Int
deriving DecidableEq

/-- The `hot_paths` section of the app configuration. -/
structure HotPaths where
  always_scan : List String
  recency_scan : List RecencyRule
  system_files : List String

/-- The scanner-relevant part of the app configuration (`config` from
`src/config/app.config.ts`): the hot-path policy and the cache TTL in
seconds.  The configuration is pure data external to the core. -/
structure AppConfig where
  hot_paths : HotPaths
  scanner_cache_ttl : Int

/-- Which scan group a file came from. -/
inductive ScanSource
  | always
  | recency
  | system
deriving DecidableEq

/-- `VaultFile` from scanner.ts. -/
structure VaultFile where
  path : String
  name : String
  relativePath : String
  mtime : Int
  size : Nat
  source : ScanSource
deriving DecidableEq

/-- `ScanResult` from scanner.ts. -/
structure ScanResult where
  files : List VaultFile
  scannedCount : Nat
  totalDirs : Nat
  scanDuration : Int
  cachedAt : Option Int
deriving DecidableEq

/-- The scanner's module-level cache slot (`cachedResult` and
`cacheTime`), passed explicitly: `none` models the empty cache. -/
def ScanCache := Option (ScanResult × Int)

/-- `scanDirectory` from scanner.ts: list one directory
non-recursively, keep regular `.md` files, stat each (skipping stat
failures), and apply the optional recency cutoff. -/
def scanDirectory (v : VaultFS) (cwd dirPath vaultRoot : String)
    (source : ScanSource) (cutoffDate : Option Int) : List VaultFile :=
  match v.readdir dirPath with
  | none => []
  | some entries =>
    entries.filterMap fun entry =>
      if entry.isFile && jsEndsWith entry.name ".md" then
        let fullPath := normalizePath cwd (joinP dirPath entry.name)
        match v.stat fullPath with
        | none => none
        | some st =>
          match cutoffDate with
          | some cutoff =>
            if st.mtime < cutoff then none
            else some
              { path := fullPath
                name := basenameExt entry.name ".md"
                relativePath := fullPath.drop (vaultRoot.length + 1)
                mtime := st.mtime
                size := st.size
                source := source }
          | none => some
              { path := fullPath
                name := basenameExt entry.name ".md"
                relativePath := fullPath.drop (vaultRoot.length + 1)
                mtime := st.mtime
                size := st.size
                source := source }
      else none

/-- `scanSingleFile` from scanner.ts. -/
def scanSingleFile (v : VaultFS) (cwd filePath vaultRoot : String)
    (source : ScanSource) : Option VaultFile :=
  let normalized := normalizePath cwd filePath
  match v.stat normalized with
  | none => none
  | some st => some
      { path := normalized
        name := basenameExt normalized ".md"
        relativePath := normalized.drop (vaultRoot.length + 1)
        mtime := st.mtime
        size := st.size
        source := source }

/-- The fresh-scan branch of `scanVault`: walk the always-scan
directories, the recency directories with their cutoffs, and the
literal system files; cache the assembled result. -/
def scanVaultFresh (cfg : AppConfig) (v : VaultFS) (cwd vaultRoot : String)
    (now : Int) : ScanResult × ScanCache :=
  let root := normalizePath cwd vaultRoot
  let filesAlways := (cfg.hot_paths.always_scan.map fun dir =>
    scanDirectory v cwd (root ++ "/" ++ dir) root .always none).flatten
  let filesRecency := (cfg.hot_paths.recency_scan.map fun rule =>
    scanDirectory v cwd (root ++ "/" ++ rule.path) root .recency
      (some (now - rule.max_age_days * (24 * 60 * 60 * 1000)))).flatten
  let filesSystem := cfg.hot_paths.system_files.filterMap fun relPath =>
    scanSingleFile v cwd (root ++ "/" ++ relPath) root .system
  let files := filesAlways ++ filesRecency ++ filesSystem
  let result : ScanResult :=
    { files := files
      scannedCount := files.length
      totalDirs :=
        cfg.hot_paths.always_scan.length + cfg.hot_paths.recency_scan.length
      scanDuration := now - now
      cachedAt := none }
  (result, some (result, now))

/-- `scanVault` from scanner.ts, with the module-level cache passed and
returned explicitly and the clock `now` (ms) as a parameter: a
populated cache younger than the TTL is served (stamped with its
original cache time), otherwise a fresh scan runs. -/
def scanVault (cfg : AppConfig) (v : VaultFS) (cwd vaultRoot : String)
    (now : Int) (cache : ScanCache) : ScanResult × ScanCache :=
  match cache with
  | some (cachedResult, cacheTime) =>
    if now - cacheTime < cfg.scanner_cache_ttl * 1000 then
      ({ cachedResult with cachedAt := some cacheTime }, some (cachedResult, cacheTime))
    else scanVaultFresh cfg v cwd vaultRoot now
  | none => scanVaultFresh cfg v cwd vaultRoot now

/-- `invalidateCache` from scanner.ts. -/
def invalidateCache (_cache : ScanCache) : ScanCache := none

/-- Claim-side count: markdown files a directory listing offers to the
scanner (regular `*.md` entries whose stat succeeds). -/
def mdStatCount (v : VaultFS) (cwd dirPath : String) : Nat :=
  match v.readdir dirPath with
  | none => 0
  | some entries =>
    entries.countP fun entry =>
      entry.isFile && jsEndsWith entry.name ".md" &&
        (v.stat (normalizePath cwd (joinP dirPath entry.name))).isSome

/-- Claim-side count: as `mdStatCount`, keeping only files whose
modification time is at or after the cutoff. -/
def recentMdStatCount (v : VaultFS) (cwd dirPath : String) (cutoff : Int) : Nat :=
  match v.readdir dirPath with
  | none => 0
  | some entries =>
    entries.countP fun entry =>
      entry.isFile && jsEndsWith entry.name ".md" &&
        (match v.stat (normalizePath cwd (joinP dirPath entry.name)) with
         | none => false
         | some st => !decide (st.mtime < cutoff))

/-- Claim-side count: configured system files that exist. -/
def systemPresentCount (cfg : AppConfig) (v : VaultFS) (cwd root : String) : Nat :=
  cfg.hot_paths.system_files.countP fun relPath =>
    (v.stat (normalizePath cwd (root ++ "/" ++ relPath))).isSome

/-! ## SafeWriter (`src/lib/safety/safe-write.ts`): failure-injected
filesystem model -/

/-- `MAX_BACKUPS` from safe-write.ts. -/
def MAX_BACKUPS : Nat := 5

/-- `RETRY_DELAYS` from safe-write.ts (ms, exponential backoff). -/
def RETRY_DELAYS : List Nat := [200, 400, 800, 1600]

/-- `RETRYABLE_CODES` from safe-write.ts. -/
def RETRYABLE_CODES : List String := ["EACCES", "EBUSY", "EPERM"]

/-- Kind of primitive filesystem operation being attempted. -/
inductive OpKind
  | write
  | copy
  | unlink
  | rename
  | access
  | mkdir
deriving DecidableEq

/-- An injected failure: the Node error code thrown and, for
content-writing operations, the content the destination is left with
(`none` = destination untouched, `some junk` = half-written). -/
structure Eff where
  code : String
  junk : Option String
deriving DecidableEq

/-- A failure oracle: for the `n`-th primitive operation of the run,
of kind `k`, `none` means it succeeds and `some e` means it throws. -/
def Oracle := Nat → OpKind → Option Eff

/-- Flat file store: association list from path to content; earlier
entries shadow later ones. -/
def FS := List (String × String)

/-- Writer-side world state: the file store, the number of primitive
operations performed so far (indexing the oracle), and the log of
sleeps performed by the retry wrapper (ms). -/
structure St where
  fs : FS
  ctr : Nat
  sleeps : List Nat

/-- Look a path up in the file store. -/
def lookupF : FS → String → Option String
  | [], _ => none
  | (q, c) :: rest, p => if q = p then some c else lookupF rest p

/-- Store new content at a path. -/
def setF (fs : FS) (p c : String) : FS := (p, c) :: fs

/-- Remove a path from the store. -/
def eraseF (fs : FS) (p : String) : FS := fs.filter (fun kv => kv.1 ≠ p)

/-- Result of one fallible filesystem primitive: a thrown Node error
code or a value, together with the state after the call. -/
abbrev FsRes (α : Type) := Except String α × St

/-- Consume one oracle entry for an operation of kind `k`. -/
def popEff (orc : Oracle) (k : OpKind) (st : St) : Option Eff × St :=
  (orc st.ctr k, { st with ctr := st.ctr + 1 })

/-- Apply an injected half-write to a destination path. -/
def applyJunk (p : String) (junk : Option String) (st : St) : St :=
  match junk with
  | none => st
  | some j => { st with fs := setF st.fs p j }

/-- Model of `fs.writeFile`: on success the path holds the new
content; an injected failure throws its code and may leave the
destination half-written. -/
def fsWrite (orc : Oracle) (p content : String) (st : St) : FsRes Unit :=
  match popEff orc .write st with
  | (some e, st) => (.error e.code, applyJunk p e.junk st)
  | (none, st) => (.ok (), { st with fs := setF st.fs p content })

/-- Model of `fs.copyFile`: ENOENT when the source is missing; on
success the destination holds the source content; an injected failure
throws and may leave the destination half-written. -/
def fsCopy (orc : Oracle) (src dest : String) (st : St) : FsRes Unit :=
  match popEff orc .copy st with
  | (some e, st) => (.error e.code, applyJunk dest e.junk st)
  | (none, st) =>
    match lookupF st.fs src with
    | none => (.error "ENOENT", st)
    | some content => (.ok (), { st with fs := setF st.fs dest content })

/-- Model of `fs.unlink`. -/
def fsUnlink (orc : Oracle) (p : String) (st : St) : FsRes Unit :=
  match popEff orc .unlink st with
  | (some e, st) => (.error e.code, st)
  | (none, st) =>
    match lookupF st.fs p with
    | none => (.error "ENOENT", st)
    | some _ => (.ok (), { st with fs := eraseF st.fs p })

/-- Model of `fs.rename` (used only for backup rotation). -/
def fsRename (orc : Oracle) (src dest : String) (st : St) : FsRes Unit :=
  match popEff orc .rename st with
  | (some e, st) => (.error e.code, st)
  | (none, st) =>
    match lookupF st.fs src with
    | none => (.error "ENOENT", st)
    | some content => (.ok (), { st with fs := setF (eraseF st.fs src) dest content })

/-- Model of `fs.access`: succeeds exactly when the path exists (an
injected failure can also make it throw). -/
def fsAccess (orc : Oracle) (p : String) (st : St) : FsRes Unit :=
  match popEff orc .access st with
  | (some e, st) => (.error e.code, st)
  | (none, st) =>
    match lookupF st.fs p with
    | none => (.error "ENOENT", st)
    | some _ => (.ok (), st)

/-- Model of `fs.mkdir` with `recursive: true`: directories are not
part of the flat store, only the possible failure is modelled. -/
def fsMkdir (orc : Oracle) (_dir : String) (st : St) : FsRes Unit :=
  match popEff orc .mkdir st with
  | (some e, st) => (.error e.code, st)
  | (none, st) => (.ok (), st)

/-- `sleep(ms)`, recorded in the log. -/
def sleep (ms : Nat) (st : St) : St := { st with sleeps := st.sleeps ++ [ms] }

/-- The loop of `withRetry`, with the remaining number of iterations
as fuel; the source iterates `attempt` from `0` to
`RETRY_DELAYS.length`, so `remaining + attempt = RETRY_DELAYS.length + 1`
throughout and the fuel-exhausted branch mirrors the source's
unreachable final `throw`.  Both call sites discard the value, so the
wrapped operation is modelled at `Unit`. -/
def withRetryGo (step : St → FsRes Unit) : Nat → Nat → St → FsRes Unit
  | 0, _, st => (.error "withRetry exhausted attempts", st)
  | remaining + 1, attempt, st =>
    match step st with
    | (.ok a, st) => (.ok a, st)
    | (.error e, st) =>
      if RETRYABLE_CODES.contains e && decide (attempt < RETRY_DELAYS.length) then
        withRetryGo step remaining (attempt + 1) (sleep (RETRY_DELAYS.getD attempt 0) st)
      else (.error e, st)

/-- `withRetry` from safe-write.ts: retry on a retryable code after
the next backoff delay, at most `RETRY_DELAYS.length` retries. -/
def withRetry (step : St → FsRes Unit) (st : St) : FsRes Unit :=
  withRetryGo step (RETRY_DELAYS.length + 1) 0 st

/-- `writeWithRetry` from safe-write.ts. -/
def writeWithRetry (orc : Oracle) (filePath content : String) (st : St) : FsRes Unit :=
  withRetry (fsWrite orc filePath content) st

/-- `copyWithRetry` from safe-write.ts. -/
def copyWithRetry (orc : Oracle) (src dest : String) (st : St) : FsRes Unit :=
  withRetry (fsCopy orc src dest) st

/-- `deleteQuietly` from safe-write.ts: unlink, ignoring all errors. -/
def deleteQuietly (orc : Oracle) (filePath : String) (st : St) : St :=
  (fsUnlink orc filePath st).2

/-- The backup path for directory, base name, extension and slot
index: `join(dir, base + ext + ".bak." + i)`. -/
def bakPathAt (dir base ext : String) (i : Nat) : String :=
  joinP dir (base ++ ext ++ ".bak." ++ natToStr i)

/-- The rotation loop of `createBackup`, iterating `i` from
`maxBackups` down to `1` (the fuel is the current index): the slot at
`maxBackups` is deleted, lower slots are renamed up by one, a missing
rename source is skipped. -/
def rotateLoop (orc : Oracle) (dir base ext : String) (maxBackups : Nat) :
    Nat → St → St
  | 0, st => st
  | i + 1, st =>
    let older := bakPathAt dir base ext (i + 1)
    let st :=
      if i + 1 = maxBackups then deleteQuietly orc older st
      else (fsRename orc older (bakPathAt dir base ext (i + 2)) st).2
    rotateLoop orc dir base ext maxBackups i st

/-- `createBackup` from safe-write.ts: nothing to do when the target
does not exist; otherwise rotate the numbered backups and copy the
current content into slot 1. -/
def createBackup (orc : Oracle) (filePath : String) (maxBackups : Nat) (st : St) :
    Except String (Option String) × St :=
  match fsAccess orc filePath st with
  | (.error _, st) => (.ok none, st)
  | (.ok _, st) =>
    let dir := dirname filePath
    let ext := extname filePath
    let base := basenameExt filePath ext
    let st := rotateLoop orc dir base ext maxBackups maxBackups st
    let backupPath := bakPathAt dir base ext 1
    match fsCopy orc filePath backupPath st with
    | (.error e, st) => (.error e, st)
    | (.ok _, st) => (.ok (some backupPath), st)

/-- `SafeWriteOptions` from safe-write.ts. -/
structure SafeWriteOptions where
  vaultRoot : String
  backup : Option Bool := none
  maxBackups : Option Nat := none

/-- `SafeWriteResult` from safe-write.ts. -/
structure SafeWriteResult where
  success : Bool
  backupPath : Option String := none
  error : Option String := none
deriving DecidableEq

/-- The body of the `try` block of `safeWriteFile` (mkdir, temp write,
optional backup, final copy); a throw carries the backup path assigned
so far, which the catch block uses for rollback. -/
def safeWriteAttempt (orc : Oracle) (normalized content : String)
    (shouldBackup : Bool) (maxBackups : Nat) (tmpPath : String) (st : St) :
    Except (String × Option String) (Option String) × St :=
  match fsMkdir orc (dirname normalized) st with
  | (.error e, st) => (.error (e, none), st)
  | (.ok _, st) =>
    match writeWithRetry orc tmpPath content st with
    | (.error e, st) => (.error (e, none), st)
    | (.ok _, st) =>
      if shouldBackup then
        match createBackup orc normalized maxBackups st with
        | (.error e, st) => (.error (e, none), st)
        | (.ok backupPath, st) =>
          match copyWithRetry orc tmpPath normalized st with
          | (.error e, st) => (.error (e, backupPath), st)
          | (.ok _, st) => (.ok backupPath, st)
      else
        match copyWithRetry orc tmpPath normalized st with
        | (.error e, st) => (.error (e, none), st)
        | (.ok _, st) => (.ok none, st)

/-- `safeWriteFile` from safe-write.ts: traversal check before any
filesystem access; then write to `<target>.tmp`, back up the target,
copy the temp file over the target; on a throw roll back from the
backup (errors swallowed); in both exits delete the temp file
quietly. -/
def safeWriteFile (orc : Oracle) (cwd filePath content : String)
    (options : SafeWriteOptions) (st : St) : SafeWriteResult × St :=
  let normalized := normalizePath cwd filePath
  let normalizedRoot := normalizePath cwd options.vaultRoot
  if !isWithinRoot cwd normalized normalizedRoot then
    ({ success := false
       error := some ("Path traversal blocked: \"" ++ filePath ++ "\" is outside vault root") },
      st)
  else
    let tmpPath := normalized ++ ".tmp"
    let shouldBackup := options.backup != some false
    let maxBackups := options.maxBackups.getD MAX_BACKUPS
    match safeWriteAttempt orc normalized content shouldBackup maxBackups tmpPath st with
    | (.ok backupPath, st) =>
      let st := deleteQuietly orc tmpPath st
      ({ success := true, backupPath := backupPath }, st)
    | (.error (e, backupPath), st) =>
      let st :=
        match backupPath with
        | some b => (copyWithRetry orc b normalized st).2
        | none => st
      let st := deleteQuietly orc tmpPath st
      ({ success := false
         error := some ("Write failed: " ++ e)
         backupPath := backupPath }, st)

/-- Successive `safeWriteFile` calls with the given contents; records
whether every call so far succeeded. -/
def writeSeq (orc : Oracle) (cwd filePath : String) (options : SafeWriteOptions) :
    List String → Bool × St → Bool × St
  | [], acc => acc
  | c :: rest, (ok, st) =>
    let r := safeWriteFile orc cwd filePath c options st
    writeSeq orc cwd filePath options rest (ok && r.1.success, r.2)

/-- The oracle that injects no failures. -/
def okOracle : Oracle := fun _ _ => none

/-- The oracle that fails exactly the `n`-th primitive operation with
the given code, leaving the given content behind. -/
def failAt (n : Nat) (code : String) (junk : Option String) : Oracle :=
  fun m _ => if m = n then some ⟨code, junk⟩ else none

/-! ## Retry-policy step fixtures -/

/-- A step function whose outcome at its `i`-th invocation is
described by `res`, advancing the operation counter by one and leaving
the sleep log unchanged — the shape of every oracle-driven primitive
the writer wraps in `withRetry`. -/
def StepSpec (step : St → FsRes Unit) (res : Nat → Except String Unit) : Prop :=
  ∀ st, (step st).1 = res st.ctr ∧ (step st).2.ctr = st.ctr + 1 ∧
    (step st).2.sleeps = st.sleeps

/-- Witness fixture: an oracle-driven write whose first two attempts
fail with EBUSY. -/
def c4Oracle : Oracle := fun n _ => if n < 2 then some ⟨"EBUSY", none⟩ else none

/-- Witness fixture step: a temp-file write against `c4Oracle`. -/
def c4Step (st : St) : FsRes Unit := fsWrite c4Oracle "/vault/x.md" "v1" st

/-- Witness fixture outcomes of `c4Step`. -/
def c4Res (n : Nat) : Except String Unit := if n < 2 then .error "EBUSY" else .ok ()

/-! ## Scenario fixtures -/

/-- Example configuration for the spec's concrete scan scenario. -/
def exCfg : AppConfig :=
  { hot_paths :=
      { always_scan := ["TaskNotes"]
        recency_scan := [{ path := "Emails", max_age_days := 14 }]
        system_files := [] }
    scanner_cache_ttl := 60 }

/-- Example vault for the concrete scan scenario: `TaskNotes/a.md`,
`TaskNotes/b.md`, `Emails/new.md` (mtime = now) and `Emails/old.md`
(mtime = 30 days ago). -/
def exVault (now : Int) : VaultFS :=
  { readdir := fun d =>
      if d = "/vault/TaskNotes" then
        some [{ name := "a.md", isFile := true }, { name := "b.md", isFile := true }]
      else if d = "/vault/Emails" then
        some [{ name := "new.md", isFile := true }, { name := "old.md", isFile := true }]
      else none
    stat := fun p =>
      if p = "/vault/TaskNotes/a.md" then some { mtime := now, size := 1 }
      else if p = "/vault/TaskNotes/b.md" then some { mtime := now, size := 1 }
      else if p = "/vault/Emails/new.md" then some { mtime := now, size := 1 }
      else if p = "/vault/Emails/old.md" then
        some { mtime := now - 30 * (24 * 60 * 60 * 1000), size := 1 }
      else none }

/-- A second example vault with one more task note, used to exhibit the
cache-boundary counterexample. -/
def exVaultBig (now : Int) : VaultFS :=
  { readdir := fun d =>
      if d = "/vault/TaskNotes" then
        some [{ name := "a.md", isFile := true }, { name := "b.md", isFile := true },
          { name := "c.md", isFile := true }]
      else if d = "/vault/Emails" then
        some [{ name := "new.md", isFile := true }]
      else none
    stat := fun p =>
      if p = "/vault/TaskNotes/a.md" then some { mtime := now, size := 1 }
      else if p = "/vault/TaskNotes/b.md" then some { mtime := now, size := 1 }
      else if p = "/vault/TaskNotes/c.md" then some { mtime := now, size := 1 }
      else if p = "/vault/Emails/new.md" then some { mtime := now, size := 1 }
      else none }

/-- The backup-name suffix `.bak.<i>` as a character list. -/
def bakSuffix (i : Nat) : List Char := '.' :: 'b' :: 'a' :: 'k' :: '.' :: (natToStr i).data

/-- Witness fixture options for the atomicity theorem. -/
def c1Opts : SafeWriteOptions := { vaultRoot := "/vault" }

/-- Witness fixture state: the target exists with content `old`. -/
def c1St : St := { fs := [("/vault/x.md", "old")], ctr := 0, sleeps := [] }

/-- Witness fixture options for the backup-chain theorem:
`maxBackups := 2` inside the vault root. -/
def c3Opts : SafeWriteOptions := { vaultRoot := "/vault", maxBackups := some 2 }

/-- Witness fixture state for the backup-chain theorem: an empty
filesystem, so the first write creates the target. -/
def c3St0 : St := { fs := [], ctr := 0, sleeps := [] }


/-! ## Theorems -/

theorem valDec_append_digit (l : List Char) (c : Char) :
    valDec (l ++ [c]) = valDec l * 10 + charVal c := by
  simp [valDec, List.foldl_append]

theorem charVal_digitChar {d : Nat} (hd : d < 10) :
    charVal (Nat.digitChar d) = d := by
  interval_cases d <;> decide

theorem valDec_toDecimalAux : ∀ fuel n, n ≤ fuel → valDec (toDecimalAux fuel n) = n := by
  intro fuel
  induction fuel with
  | zero => intro n hn; interval_cases n; decide
  | succ fuel ih =>
    intro n hn
    by_cases h0 : n = 0
    · subst h0; simp [toDecimalAux, valDec]
    · have hdiv : n / 10 ≤ fuel := by
        have : n / 10 < n := Nat.div_lt_self (Nat.pos_of_ne_zero h0) (by norm_num)
        omega
      rw [toDecimalAux, if_neg h0, valDec_append_digit, ih _ hdiv,
        charVal_digitChar (Nat.mod_lt _ (by norm_num))]
      rw [mul_comm]
      exact Nat.div_add_mod n 10

theorem valDec_natToStr (n : Nat) : valDec (natToStr n).data = n := by
  by_cases h0 : n = 0
  · subst h0; decide
  · rw [natToStr, if_neg h0]
    exact valDec_toDecimalAux _ n (Nat.le_succ n)

theorem natToStr_inj {m n : Nat} (h : natToStr m = natToStr n) : m = n := by
  have hm := valDec_natToStr m
  have hn := valDec_natToStr n
  rw [h] at hm
  omega

theorem splitSegsAux_ne_nil (l acc : List Char) : splitSegsAux l acc ≠ [] := by
  induction l generalizing acc with
  | nil => simp [splitSegsAux]
  | cons c rest ih =>
    rw [splitSegsAux]
    by_cases h : isSep c = true
    · simp [h]
    · simp [h]; exact ih _

theorem splitSegsAux_sepFree (l acc : List Char) (hacc : ∀ c ∈ acc, isSep c = false) :
    ∀ s ∈ splitSegsAux l acc, SepFree s := by
  induction l generalizing acc with
  | nil =>
    intro s hs
    simp [splitSegsAux] at hs
    subst hs
    intro c hc
    exact hacc c (List.mem_reverse.mp hc)
  | cons c rest ih =>
    intro s hs
    rw [splitSegsAux] at hs
    by_cases h : isSep c = true
    · rw [if_pos h] at hs
      rcases List.mem_cons.mp hs with h1 | h2
      · subst h1; intro c hc; exact hacc c (List.mem_reverse.mp hc)
      · exact ih [] (by simp) s h2
    · rw [if_neg h] at hs
      refine ih (c :: acc) ?_ s hs
      intro d hd
      rcases List.mem_cons.mp hd with h1 | h2
      · subst h1; exact Bool.not_eq_true _ ▸ h
      · exact hacc d h2

theorem splitSegsAux_append_sepFree {s : List Char} (hs : SepFree s) (l acc : List Char) :
    splitSegsAux (s ++ l) acc = splitSegsAux l (s.reverse ++ acc) := by
  induction s generalizing acc with
  | nil => simp
  | cons c rest ih =>
    have hc : isSep c = false := hs c (by simp)
    have hrest : SepFree rest := fun d hd => hs d (by simp [hd])
    rw [List.cons_append, splitSegsAux, if_neg (by simp [hc]), ih hrest]
    simp

theorem splitSegsAux_of_sepFree {l : List Char} (hl : SepFree l) (acc : List Char) :
    splitSegsAux l acc = [acc.reverse ++ l] := by
  have := splitSegsAux_append_sepFree hl [] acc
  simpa [splitSegsAux] using this

theorem splitSegsAux_iData (segs : List (List Char)) (hne : segs ≠ [])
    (hsf : ∀ s ∈ segs, SepFree s) : splitSegsAux (iData segs) [] = segs := by
  induction segs with
  | nil => exact absurd rfl hne
  | cons s rest ih =>
    cases rest with
    | nil =>
      rw [iData, splitSegsAux_of_sepFree (hsf s (by simp)) []]
      simp
    | cons s2 more =>
      rw [iData, splitSegsAux_append_sepFree (hsf s (by simp)) _ [],
        splitSegsAux, if_pos (by simp [isSep])]
      simp only [List.append_nil, List.reverse_reverse]
      rw [ih (by simp) (fun t ht => hsf t (by simp [ht]))]

theorem cleanAbsStep_clean {acc : List (List Char)} {s : List Char} (hs : CleanSeg s) :
    cleanAbsStep acc s = acc ++ [s] := by
  obtain ⟨h1, h2, h3, _⟩ := hs
  rw [cleanAbsStep, if_neg (by simp [h1, h2]), if_neg h3]

theorem foldl_cleanAbs_clean (segs : List (List Char)) (hc : ∀ s ∈ segs, CleanSeg s) :
    ∀ acc, segs.foldl cleanAbsStep acc = acc ++ segs := by
  induction segs with
  | nil => simp
  | cons s rest ih =>
    intro acc
    rw [List.foldl_cons, cleanAbsStep_clean (hc s (by simp)),
      ih (fun t ht => hc t (by simp [ht]))]
    simp

theorem mem_foldl_cleanAbs (segs : List (List Char)) :
    ∀ acc s, s ∈ segs.foldl cleanAbsStep acc →
      s ∈ acc ∨ (s ∈ segs ∧ s ≠ [] ∧ s ≠ ['.'] ∧ s ≠ ['.', '.']) := by
  induction segs with
  | nil => intro acc s hs; simp at hs; exact Or.inl hs
  | cons t rest ih =>
    intro acc s hs
    rw [List.foldl_cons] at hs
    rcases ih _ s hs with h | h
    · rw [cleanAbsStep] at h
      split at h
      · exact Or.inl h
      · split at h
        · exact Or.inl (List.dropLast_subset _ h)
        · rcases List.mem_append.mp h with h1 | h1
          · exact Or.inl h1
          · rename_i hns hnd
            simp only [List.mem_singleton] at h1
            subst h1
            refine Or.inr ⟨by simp, ?_, ?_, hnd⟩
            · intro he; exact hns (Or.inl he)
            · intro he; exact hns (Or.inr he)
    · exact Or.inr ⟨by simp [h.1], h.2.1, h.2.2.1, h.2.2.2⟩

theorem toSlashes_id {s : String} (h : ∀ c ∈ s.data, c ≠ '\\') : toSlashes s = s := by
  apply String.ext
  show s.data.map _ = s.data
  conv_rhs => rw [show s.data = s.data.map id from (List.map_id _).symm]
  apply List.map_congr_left
  intro c hc
  simp [h c hc]

theorem mem_iData {c : Char} : ∀ {segs : List (List Char)},
    c ∈ iData segs → c = '/' ∨ ∃ s ∈ segs, c ∈ s := by
  intro segs
  induction segs with
  | nil => intro h; simp [iData] at h
  | cons s rest ih =>
    intro h
    cases rest with
    | nil =>
      rw [iData] at h
      exact Or.inr ⟨s, by simp, h⟩
    | cons s2 more =>
      rw [iData] at h
      rcases List.mem_append.mp h with h1 | h1
      · exact Or.inr ⟨s, by simp, h1⟩
      · rcases List.mem_cons.mp h1 with h2 | h2
        · exact Or.inl h2
        · rcases ih h2 with h3 | ⟨t, ht, hct⟩
          · exact Or.inl h3
          · exact Or.inr ⟨t, by simp [ht], hct⟩

theorem getLast_iData (segs : List (List Char)) (hne : segs ≠ [])
    (hc : ∀ s ∈ segs, CleanSeg s) :
    ∃ c, isSep c = false ∧ ('/' :: iData segs).getLast? = some c := by
  induction segs with
  | nil => exact absurd rfl hne
  | cons s rest ih =>
    cases rest with
    | nil =>
      obtain ⟨h1, _, _, hsf⟩ := hc s (by simp)
      obtain ⟨c, l, hcl⟩ := List.exists_cons_of_ne_nil (List.reverse_ne_nil_iff.mpr h1)
      have hs : s = l.reverse ++ [c] := by
        have := congrArg List.reverse hcl
        simpa using this
      refine ⟨c, hsf c (by rw [hs]; simp), ?_⟩
      rw [iData, hs, show '/' :: (l.reverse ++ [c]) = ('/' :: l.reverse) ++ [c] by simp,
        List.getLast?_concat]
    | cons s2 more =>
      obtain ⟨c, hsep, hlast⟩ := ih (by simp) (fun t ht => hc t (by simp [ht]))
      refine ⟨c, hsep, ?_⟩
      rw [iData, show '/' :: (s ++ '/' :: iData (s2 :: more)) =
        ('/' :: s) ++ ('/' :: iData (s2 :: more)) by simp]
      rw [List.getLast?_append_of_ne_nil _ (by simp)]
      exact hlast

theorem resolveAbs_shape (s0 : String) :
    stripTrailingSlash (toSlashes (resolveAbs s0)) = "" ∨
      IsClean (stripTrailingSlash (toSlashes (resolveAbs s0))) := by
  have hclean : ∀ t ∈ cleanSegsAbs (splitSegs s0), CleanSeg t := by
    intro t ht
    rcases mem_foldl_cleanAbs _ [] t ht with h | ⟨hmem, h1, h2, h3⟩
    · simp at h
    · exact ⟨h1, h2, h3, splitSegsAux_sepFree s0.data [] (by simp) t hmem⟩
  by_cases hsegs : cleanSegsAbs (splitSegs s0) = []
  · left
    rw [resolveAbs, hsegs]
    decide
  · right
    have hnobs : ∀ c ∈ (resolveAbs s0).data, c ≠ '\\' := by
      intro c hc
      rw [resolveAbs] at hc
      rcases List.mem_cons.mp hc with h | h
      · subst h; decide
      · rcases mem_iData h with h1 | ⟨t, ht, hct⟩
        · subst h1; decide
        · have := (hclean t ht).2.2.2 c hct
          intro hbs
          subst hbs
          simp [isSep] at this
    rw [toSlashes_id hnobs]
    obtain ⟨c, hcsep, hlast⟩ := getLast_iData _ hsegs hclean
    have hlast2 : (resolveAbs s0).data.getLast? = some c := by
      rw [resolveAbs]
      exact hlast
    rw [stripTrailingSlash, if_neg (by
      rw [hlast2]
      intro h
      have : c = '/' := by injection h
      subst this
      simp [isSep] at hcsep)]
    exact ⟨_, hsegs, hclean, rfl⟩

theorem normalizePath_shape (cwd p : String) :
    normalizePath cwd p = "" ∨ IsClean (normalizePath cwd p) := by
  rw [normalizePath, jsResolve]
  by_cases h : startsWithSep p = true
  · rw [if_pos h]; exact resolveAbs_shape p
  · rw [if_neg h]; exact resolveAbs_shape _

theorem normalizePath_clean_fix {q : String} (h : IsClean q) (cwd : String) :
    normalizePath cwd q = q := by
  obtain ⟨segs, hne, hclean, hdata⟩ := h
  have hsw : startsWithSep q = true := by
    rw [startsWithSep, hdata]
    rfl
  have hsf : ∀ s ∈ segs, SepFree s := fun s hs => (hclean s hs).2.2.2
  have hsplit : splitSegs q = [] :: segs := by
    rw [splitSegs, hdata, splitSegsAux, if_pos (by decide)]
    rw [splitSegsAux_iData segs hne hsf]
    rfl
  have hres : resolveAbs q = q := by
    rw [resolveAbs, hsplit]
    have : cleanSegsAbs ([] :: segs) = segs := by
      rw [cleanSegsAbs, List.foldl_cons]
      have hstep : cleanAbsStep [] [] = [] := by decide
      rw [hstep, foldl_cleanAbs_clean segs hclean []]
      simp
    rw [this]
    exact String.ext hdata.symm
  rw [normalizePath, jsResolve, if_pos hsw, hres]
  have hnobs : ∀ c ∈ q.data, c ≠ '\\' := by
    intro c hc
    rw [hdata] at hc
    rcases List.mem_cons.mp hc with h | h
    · subst h; decide
    · rcases mem_iData h with h1 | ⟨t, ht, hct⟩
      · subst h1; decide
      · have := hsf t ht c hct
        intro hbs; subst hbs; simp [isSep] at this
  rw [toSlashes_id hnobs]
  obtain ⟨c, hcsep, hlast⟩ := getLast_iData segs hne hclean
  rw [stripTrailingSlash, if_neg (by
    rw [hdata, hlast]
    intro h
    have : c = '/' := by injection h
    subst this
    simp [isSep] at hcsep)]

/-- C7: `isWithinRoot p r` is true iff the lower-cased normalization of
`p` equals the lower-cased normalization of `r` or starts with that
normalized root followed by one separator; consequently
`isWithinRoot r r` is true for every `r`. -/
theorem C7_isWithinRoot_characterization (cwd p r : String) :
    (isWithinRoot cwd p r = true ↔
      jsToLower (normalizePath cwd p) = jsToLower (normalizePath cwd r) ∨
        (jsToLower (normalizePath cwd r) ++ "/").data <+:
          (jsToLower (normalizePath cwd p)).data) ∧
    isWithinRoot cwd r r = true := by
  constructor
  · rw [isWithinRoot]
    simp only [Bool.or_eq_true, beq_iff_eq, jsStartsWith, List.isPrefixOf_iff_prefix]
  · rw [isWithinRoot]
    simp

/-- C10 counterexample: `normalizePath` is not idempotent at the
filesystem root — with cwd `/home/user`, `normalizePath "/"` is `""`,
and normalizing `""` again resolves to the cwd, not to `""`. -/
theorem C10_counterexample :
    ¬ (normalizePath "/home/user" (normalizePath "/home/user" "/") =
        normalizePath "/home/user" "/") := by decide

/-- C10 (amended): for every `cwd` and every `p` whose normalization is
not the empty string (i.e. `p` does not resolve to the filesystem root,
the one point where stripping the trailing separator interacts with
re-resolution), `normalizePath` is idempotent. -/
theorem C10_normalizePath_idempotent (cwd p : String)
    (h : normalizePath cwd p ≠ "") :
    normalizePath cwd (normalizePath cwd p) = normalizePath cwd p := by
  rcases normalizePath_shape cwd p with h0 | h0
  · exact absurd h0 h
  · exact normalizePath_clean_fix h0 cwd

/-- C10 witness: idempotence evaluated at a concrete non-root path. -/
theorem C10_normalizePath_idempotent_witness :
    normalizePath "/" "/a/b" ≠ "" ∧
      normalizePath "/" (normalizePath "/" "/a/b") = normalizePath "/" "/a/b" :=
  ⟨by decide, C10_normalizePath_idempotent "/" "/a/b" (by decide)⟩

/-! ## Writer-state helper lemmas -/

theorem lookupF_eraseF (fs : FS) (p q : String) :
    lookupF (eraseF fs p) q = if q = p then none else lookupF fs q := by
  induction fs with
  | nil => by_cases h : q = p <;> simp [eraseF, lookupF, h]
  | cons kv rest ih =>
    obtain ⟨a, c⟩ := kv
    have hstep : eraseF ((a, c) :: rest) p =
        if a = p then eraseF rest p else (a, c) :: eraseF rest p := by
      rw [eraseF, List.filter_cons]
      by_cases hap : a = p
      · rw [if_neg (by simp [hap])]
        rw [if_pos hap]
        rfl
      · rw [if_pos (by simpa using hap), if_neg hap]
        rfl
    rw [hstep]
    by_cases hap : a = p
    · rw [if_pos hap, ih]
      by_cases hqp : q = p
      · simp [hqp]
      · rw [if_neg hqp, if_neg hqp, lookupF,
          if_neg (by rw [hap]; exact fun h => hqp h.symm)]
    · rw [if_neg hap, lookupF, ih]
      by_cases haq : a = q
      · have hqp : ¬ q = p := by
          intro h
          exact hap (haq.trans h)
        rw [if_pos haq, if_neg hqp, lookupF, if_pos haq]
      · rw [if_neg haq]
        by_cases hqp : q = p
        · simp [hqp]
        · rw [if_neg hqp, if_neg hqp, lookupF, if_neg haq]

theorem lookupF_setF (fs : FS) (p c q : String) :
    lookupF (setF fs p c) q = if p = q then some c else lookupF fs q := by
  rfl

theorem deleteQuietly_lookup_self (orc : Oracle) (p : String) (st : St)
    (hunlink : ∀ n, orc n OpKind.unlink = none) :
    lookupF (deleteQuietly orc p st).fs p = none := by
  rw [deleteQuietly, fsUnlink, popEff, hunlink st.ctr]
  rcases hl : lookupF st.fs p with _ | c
  · simp only [hl]
  · simp only [hl]
    rw [lookupF_eraseF, if_pos rfl]

/-! ## C2 and C8 -/

/-- C2: for every path whose normalized form is not within the
normalized vault root, `safeWriteFile` returns `success := false` with
the traversal error message (which contains the word "traversal"),
performs no filesystem operation and changes no state: the world state
is returned untouched. -/
theorem C2_traversal_rejected (orc : Oracle) (cwd filePath content : String)
    (options : SafeWriteOptions) (st : St)
    (h : isWithinRoot cwd (normalizePath cwd filePath)
           (normalizePath cwd options.vaultRoot) = false) :
    safeWriteFile orc cwd filePath content options st =
      ({ success := false
         error := some ("Path traversal blocked: \"" ++ filePath ++
           "\" is outside vault root") }, st) ∧
    ("Path traversal blocked: \"" ++ filePath ++ "\" is outside vault root" =
      "Path " ++ "traversal" ++ (" blocked: \"" ++ (filePath ++ "\" is outside vault root"))) := by
  constructor
  · rw [safeWriteFile]
    simp only [h, Bool.not_false, if_pos]
  · have h2 : ("Path traversal blocked: \"" : String) =
      "Path traversal" ++ " blocked: \"" := by decide
    have h3 : ("Path traversal" : String) = "Path " ++ "traversal" := by decide
    conv_lhs => rw [String.append_assoc, h2, String.append_assoc, h3]

/-- C2 witness: the spec's concrete scenario
`safeWriteFile(vaultRoot + "/../escape.md", "x", {vaultRoot})`. -/
theorem C2_traversal_rejected_witness :
    isWithinRoot "/" (normalizePath "/" ("/vault" ++ "/../escape.md"))
        (normalizePath "/" "/vault") = false ∧
    safeWriteFile okOracle "/" ("/vault" ++ "/../escape.md") "x"
        { vaultRoot := "/vault" } { fs := [], ctr := 0, sleeps := [] } =
      ({ success := false
         error := some ("Path traversal blocked: \"" ++ ("/vault" ++ "/../escape.md") ++
           "\" is outside vault root") }, { fs := [], ctr := 0, sleeps := [] }) :=
  ⟨by decide,
    (C2_traversal_rejected okOracle "/" ("/vault" ++ "/../escape.md") "x"
      { vaultRoot := "/vault" } { fs := [], ctr := 0, sleeps := [] } (by decide)).1⟩

/-- C8 counterexample: a call that passes the traversal check but
whose cleanup unlink fails with a transient EBUSY (swallowed by
`deleteQuietly`) leaves `<target>.tmp` on disk --- even though the
write itself reports success. -/
theorem C8_counterexample :
    isWithinRoot "/" (normalizePath "/" "/vault/x.md") (normalizePath "/" "/vault") = true ∧
    (safeWriteFile (failAt 4 "EBUSY" none) "/" "/vault/x.md" "v1"
        { vaultRoot := "/vault" } { fs := [], ctr := 0, sleeps := [] }).1.success = true ∧
    lookupF (safeWriteFile (failAt 4 "EBUSY" none) "/" "/vault/x.md" "v1"
        { vaultRoot := "/vault" } { fs := [], ctr := 0, sleeps := [] }).2.fs
      "/vault/x.md.tmp" = some "v1" := by decide

/-- C8 (amended): after every `safeWriteFile` call that passes the
traversal check, under every failure pattern in which the unlink
primitive itself never fails spuriously, no `<targetPath>.tmp` sibling
remains (the cleanup is attempted on every exit path). -/
theorem C8_tmp_cleanup (orc : Oracle) (cwd filePath content : String)
    (options : SafeWriteOptions) (st : St)
    (hunlink : ∀ n, orc n OpKind.unlink = none)
    (hpass : isWithinRoot cwd (normalizePath cwd filePath)
      (normalizePath cwd options.vaultRoot) = true) :
    lookupF (safeWriteFile orc cwd filePath content options st).2.fs
      (normalizePath cwd filePath ++ ".tmp") = none := by
  rw [safeWriteFile]
  simp only [hpass, Bool.not_true, Bool.false_eq_true, if_false]
  rcases ha : safeWriteAttempt orc (normalizePath cwd filePath) content
      (options.backup != some false) (options.maxBackups.getD MAX_BACKUPS)
      (normalizePath cwd filePath ++ ".tmp") st with ⟨res, st1⟩
  cases res with
  | ok bp =>
    simp only
    exact deleteQuietly_lookup_self orc _ _ hunlink
  | error eb =>
    obtain ⟨e, bp⟩ := eb
    simp only
    cases bp with
    | none => exact deleteQuietly_lookup_self orc _ _ hunlink
    | some b => exact deleteQuietly_lookup_self orc _ _ hunlink

/-- C8 witness for the amended theorem: a concrete successful write
with no injected unlink failures leaves no temp file. -/
theorem C8_tmp_cleanup_witness :
    (∀ n, okOracle n OpKind.unlink = none) ∧
    isWithinRoot "/" (normalizePath "/" "/vault/x.md") (normalizePath "/" "/vault") = true ∧
    lookupF (safeWriteFile okOracle "/" "/vault/x.md" "v1"
        { vaultRoot := "/vault" } { fs := [], ctr := 0, sleeps := [] }).2.fs
      (normalizePath "/" "/vault/x.md" ++ ".tmp") = none :=
  ⟨fun _ => rfl, by decide,
    C8_tmp_cleanup okOracle "/" "/vault/x.md" "v1" { vaultRoot := "/vault" }
      { fs := [], ctr := 0, sleeps := [] } (fun _ => rfl) (by decide)⟩

theorem withRetryGo_ok (step : St → FsRes Unit) (res : Nat → Except String Unit)
    (hstep : StepSpec step res) :
    ∀ j att st, att + j ≤ RETRY_DELAYS.length →
      (∀ i < j, ∃ e, res (st.ctr + i) = .error e ∧ RETRYABLE_CODES.contains e = true) →
      res (st.ctr + j) = .ok () →
      (withRetryGo step (RETRY_DELAYS.length + 1 - att) att st).1 = .ok () ∧
      (withRetryGo step (RETRY_DELAYS.length + 1 - att) att st).2.sleeps =
        st.sleeps ++ ((RETRY_DELAYS.drop att).take j) ∧
      (withRetryGo step (RETRY_DELAYS.length + 1 - att) att st).2.ctr = st.ctr + j + 1 := by
  intro j
  induction j with
  | zero =>
    intro att st hatt _ hok
    have hrem : RETRY_DELAYS.length + 1 - att = (RETRY_DELAYS.length - att) + 1 := by omega
    rw [hrem, withRetryGo]
    rcases hs : step st with ⟨r, st1⟩
    obtain ⟨h1, h2, h3⟩ := hstep st
    rw [hs] at h1 h2 h3
    simp only at h1 h2 h3
    rw [show st.ctr + 0 = st.ctr from rfl] at hok
    rw [h1, hok]
    exact ⟨rfl, by simp [h3], by simp [h2]⟩
  | succ j ih =>
    intro att st hatt hfail hok
    have hrem : RETRY_DELAYS.length + 1 - att = (RETRY_DELAYS.length - att) + 1 := by omega
    rw [hrem, withRetryGo]
    rcases hs : step st with ⟨r, st1⟩
    obtain ⟨h1, h2, h3⟩ := hstep st
    rw [hs] at h1 h2 h3
    simp only at h1 h2 h3
    obtain ⟨e0, he0, hret0⟩ := hfail 0 (Nat.succ_pos j)
    rw [show st.ctr + 0 = st.ctr from rfl] at he0
    rw [h1, he0]
    have hattlt : att < RETRY_DELAYS.length := by omega
    have hguard : (RETRYABLE_CODES.contains e0 && decide (att < RETRY_DELAYS.length)) = true := by
      rw [hret0]
      simp [hattlt]
    simp only [hguard, if_true]
    have hlen2 : RETRY_DELAYS.length - att = RETRY_DELAYS.length + 1 - (att + 1) := by omega
    rw [hlen2]
    set st2 := sleep (RETRY_DELAYS.getD att 0) st1 with hst2
    have hctr2 : st2.ctr = st.ctr + 1 := by simp [hst2, sleep, h2]
    have hsleeps2 : st2.sleeps = st.sleeps ++ [RETRY_DELAYS.getD att 0] := by
      simp [hst2, sleep, h3]
    have hih := ih (att + 1) st2 (by omega)
      (by
        intro i hi
        obtain ⟨e, he, hr⟩ := hfail (i + 1) (by omega)
        refine ⟨e, ?_, hr⟩
        rw [hctr2, show st.ctr + 1 + i = st.ctr + (i + 1) by omega]
        exact he)
      (by
        rw [hctr2, show st.ctr + 1 + j = st.ctr + (j + 1) by omega]
        exact hok)
    refine ⟨hih.1, ?_, ?_⟩
    · rw [hih.2.1, hsleeps2]
      have hdrop : RETRY_DELAYS.drop att =
          RETRY_DELAYS[att] :: RETRY_DELAYS.drop (att + 1) :=
        List.drop_eq_getElem_cons hattlt
      have hgetD : RETRY_DELAYS.getD att 0 = RETRY_DELAYS[att] :=
        List.getD_eq_getElem RETRY_DELAYS 0 hattlt
      rw [hdrop, hgetD, List.take_succ_cons, List.append_assoc]
      rfl
    · rw [hih.2.2, hctr2]
      omega

theorem withRetryGo_err (step : St → FsRes Unit) (res : Nat → Except String Unit)
    (hstep : StepSpec step res) :
    ∀ j att st e, att + j ≤ RETRY_DELAYS.length →
      (∀ i < j, ∃ e2, res (st.ctr + i) = .error e2 ∧ RETRYABLE_CODES.contains e2 = true) →
      res (st.ctr + j) = .error e →
      (RETRYABLE_CODES.contains e = false ∨ att + j = RETRY_DELAYS.length) →
      (withRetryGo step (RETRY_DELAYS.length + 1 - att) att st).1 = .error e ∧
      (withRetryGo step (RETRY_DELAYS.length + 1 - att) att st).2.sleeps =
        st.sleeps ++ ((RETRY_DELAYS.drop att).take j) ∧
      (withRetryGo step (RETRY_DELAYS.length + 1 - att) att st).2.ctr = st.ctr + j + 1 := by
  intro j
  induction j with
  | zero =>
    intro att st e hatt _ herr hstop
    have hrem : RETRY_DELAYS.length + 1 - att = (RETRY_DELAYS.length - att) + 1 := by omega
    rw [hrem, withRetryGo]
    rcases hs : step st with ⟨r, st1⟩
    obtain ⟨h1, h2, h3⟩ := hstep st
    rw [hs] at h1 h2 h3
    simp only at h1 h2 h3
    rw [show st.ctr + 0 = st.ctr from rfl] at herr
    rw [h1, herr]
    have hguard : (RETRYABLE_CODES.contains e && decide (att < RETRY_DELAYS.length)) = false := by
      rcases hstop with hc | hc
      · rw [hc, Bool.false_and]
      · have hd : decide (att < RETRY_DELAYS.length) = false := decide_eq_false (by omega)
        rw [hd, Bool.and_false]
    simp only [hguard, Bool.false_eq_true, if_false]
    exact ⟨by simp, by simp [h3], by simp [h2]⟩
  | succ j ih =>
    intro att st e hatt hfail herr hstop
    have hrem : RETRY_DELAYS.length + 1 - att = (RETRY_DELAYS.length - att) + 1 := by omega
    rw [hrem, withRetryGo]
    rcases hs : step st with ⟨r, st1⟩
    obtain ⟨h1, h2, h3⟩ := hstep st
    rw [hs] at h1 h2 h3
    simp only at h1 h2 h3
    obtain ⟨e0, he0, hret0⟩ := hfail 0 (Nat.succ_pos j)
    rw [show st.ctr + 0 = st.ctr from rfl] at he0
    rw [h1, he0]
    have hattlt : att < RETRY_DELAYS.length := by omega
    have hguard : (RETRYABLE_CODES.contains e0 && decide (att < RETRY_DELAYS.length)) = true := by
      rw [hret0]
      simp [hattlt]
    simp only [hguard, if_true]
    have hlen2 : RETRY_DELAYS.length - att = RETRY_DELAYS.length + 1 - (att + 1) := by omega
    rw [hlen2]
    set st2 := sleep (RETRY_DELAYS.getD att 0) st1 with hst2
    have hctr2 : st2.ctr = st.ctr + 1 := by simp [hst2, sleep, h2]
    have hsleeps2 : st2.sleeps = st.sleeps ++ [RETRY_DELAYS.getD att 0] := by
      simp [hst2, sleep, h3]
    have hih := ih (att + 1) st2 e (by omega)
      (by
        intro i hi
        obtain ⟨e2, he2, hr⟩ := hfail (i + 1) (by omega)
        refine ⟨e2, ?_, hr⟩
        rw [hctr2, show st.ctr + 1 + i = st.ctr + (i + 1) by omega]
        exact he2)
      (by
        rw [hctr2, show st.ctr + 1 + j = st.ctr + (j + 1) by omega]
        exact herr)
      (by
        rcases hstop with hc | hc
        · exact Or.inl hc
        · exact Or.inr (by omega))
    refine ⟨hih.1, ?_, ?_⟩
    · rw [hih.2.1, hsleeps2]
      have hdrop : RETRY_DELAYS.drop att =
          RETRY_DELAYS[att] :: RETRY_DELAYS.drop (att + 1) :=
        List.drop_eq_getElem_cons hattlt
      have hgetD : RETRY_DELAYS.getD att 0 = RETRY_DELAYS[att] :=
        List.getD_eq_getElem RETRY_DELAYS 0 hattlt
      rw [hdrop, hgetD, List.take_succ_cons, List.append_assoc]
      rfl
    · rw [hih.2.2, hctr2]
      omega

/-- C4: the retry policy of `withRetry`, for every wrapped operation
whose per-invocation outcomes are described by `res`: a retryable
failure (code in {EACCES, EBUSY, EPERM}) is retried after sleeping the
next delay of the fixed schedule 200, 400, 800, 1600 ms, for at most
four retries (five invocations total); a non-retryable failure, or a
retryable failure once the schedule is exhausted, propagates
immediately as the original error; a success on any attempt returns at
once. -/
theorem C4_withRetry_policy (step : St → FsRes Unit) (res : Nat → Except String Unit)
    (hstep : StepSpec step res) :
    RETRY_DELAYS = [200, 400, 800, 1600] ∧
    RETRYABLE_CODES = ["EACCES", "EBUSY", "EPERM"] ∧
    (∀ st j, j ≤ RETRY_DELAYS.length →
      (∀ i < j, ∃ e, res (st.ctr + i) = .error e ∧ RETRYABLE_CODES.contains e = true) →
      res (st.ctr + j) = .ok () →
      (withRetry step st).1 = .ok () ∧
      (withRetry step st).2.sleeps = st.sleeps ++ RETRY_DELAYS.take j ∧
      (withRetry step st).2.ctr = st.ctr + j + 1) ∧
    (∀ st j e, j ≤ RETRY_DELAYS.length →
      (∀ i < j, ∃ e2, res (st.ctr + i) = .error e2 ∧ RETRYABLE_CODES.contains e2 = true) →
      res (st.ctr + j) = .error e → RETRYABLE_CODES.contains e = false →
      (withRetry step st).1 = .error e ∧
      (withRetry step st).2.sleeps = st.sleeps ++ RETRY_DELAYS.take j ∧
      (withRetry step st).2.ctr = st.ctr + j + 1) ∧
    (∀ st e,
      (∀ i < RETRY_DELAYS.length, ∃ e2, res (st.ctr + i) = .error e2 ∧
        RETRYABLE_CODES.contains e2 = true) →
      res (st.ctr + RETRY_DELAYS.length) = .error e →
      (withRetry step st).1 = .error e ∧
      (withRetry step st).2.sleeps = st.sleeps ++ RETRY_DELAYS ∧
      (withRetry step st).2.ctr = st.ctr + RETRY_DELAYS.length + 1) := by
  refine ⟨rfl, rfl, ?_, ?_, ?_⟩
  · intro st j hj hfail hok
    have h := withRetryGo_ok step res hstep j 0 st (by omega) hfail hok
    rw [withRetry]
    simpa using h
  · intro st j e hj hfail herr hnret
    have h := withRetryGo_err step res hstep j 0 st e (by omega) hfail herr (Or.inl hnret)
    rw [withRetry]
    simpa using h
  · intro st e hfail herr
    have h := withRetryGo_err step res hstep RETRY_DELAYS.length 0 st e (by omega)
      hfail herr (Or.inr rfl)
    rw [withRetry]
    simpa using h

/-- C4 witness: the fixture step fails twice with EBUSY and then
succeeds; `withRetry` retries after 200 and 400 ms and returns success
on the third invocation. -/
theorem C4_withRetry_policy_witness :
    (withRetry c4Step { fs := [], ctr := 0, sleeps := [] }).1 = .ok () ∧
    (withRetry c4Step { fs := [], ctr := 0, sleeps := [] }).2.sleeps = [200, 400] ∧
    (withRetry c4Step { fs := [], ctr := 0, sleeps := [] }).2.ctr = 3 := by
  have hstep : StepSpec c4Step c4Res := by
    intro st
    by_cases h : st.ctr < 2 <;>
      simp [c4Step, c4Res, c4Oracle, fsWrite, popEff, applyJunk, setF, h]
  have h := (C4_withRetry_policy c4Step c4Res hstep).2.2.1
    { fs := [], ctr := 0, sleeps := [] } 2 (by decide)
    (by
      intro i hi
      refine ⟨"EBUSY", ?_, by decide⟩
      interval_cases i <;> rfl)
    (by rfl)
  refine ⟨h.1, ?_, ?_⟩
  · rw [h.2.1]
    decide
  · rw [h.2.2]

theorem countP_congr_mem {α : Type} {p q : α → Bool} :
    ∀ {l : List α}, (∀ a ∈ l, p a = q a) → l.countP p = l.countP q := by
  intro l
  induction l with
  | nil => intro _; rfl
  | cons a l ih =>
    intro h
    rw [List.countP_cons, List.countP_cons, h a (by simp),
      ih (fun b hb => h b (by simp [hb]))]

theorem length_filterMap_eq_countP {α β : Type} (f : α → Option β) (l : List α) :
    (l.filterMap f).length = l.countP (fun a => (f a).isSome) := by
  induction l with
  | nil => rfl
  | cons a l ih =>
    rw [List.filterMap_cons, List.countP_cons]
    cases h : f a with
    | none => simp [h, ih]
    | some b => simp [h, ih]

theorem scanDirectory_length_always (v : VaultFS) (cwd dirPath root : String)
    (src : ScanSource) :
    (scanDirectory v cwd dirPath root src none).length = mdStatCount v cwd dirPath := by
  rw [scanDirectory, mdStatCount]
  cases v.readdir dirPath with
  | none => rfl
  | some entries =>
    rw [length_filterMap_eq_countP]
    apply countP_congr_mem
    intro e _
    by_cases h1 : (e.isFile && jsEndsWith e.name ".md") = true
    · rw [if_pos h1, h1, Bool.true_and]
      cases hst : v.stat (normalizePath cwd (joinP dirPath e.name)) with
      | none => simp [hst]
      | some st => simp [hst]
    · rw [if_neg h1]
      rw [Bool.not_eq_true] at h1
      rw [h1, Bool.false_and]
      rfl

theorem scanDirectory_length_recency (v : VaultFS) (cwd dirPath root : String)
    (src : ScanSource) (cutoff : Int) :
    (scanDirectory v cwd dirPath root src (some cutoff)).length =
      recentMdStatCount v cwd dirPath cutoff := by
  rw [scanDirectory, recentMdStatCount]
  cases v.readdir dirPath with
  | none => rfl
  | some entries =>
    rw [length_filterMap_eq_countP]
    apply countP_congr_mem
    intro e _
    by_cases h1 : (e.isFile && jsEndsWith e.name ".md") = true
    · rw [if_pos h1, h1, Bool.true_and]
      cases hst : v.stat (normalizePath cwd (joinP dirPath e.name)) with
      | none => simp [hst]
      | some st =>
        by_cases hm : st.mtime < cutoff
        · simp [hst, hm]
        · simp [hst, hm]
    · rw [if_neg h1]
      rw [Bool.not_eq_true] at h1
      rw [h1, Bool.false_and]
      rfl

theorem scanSingleFile_isSome (v : VaultFS) (cwd filePath root : String)
    (src : ScanSource) :
    (scanSingleFile v cwd filePath root src).isSome =
      (v.stat (normalizePath cwd filePath)).isSome := by
  rw [scanSingleFile]
  cases hst : v.stat (normalizePath cwd filePath) with
  | none => simp
  | some st => simp

/-- C5: scanner boundedness — a fresh (uncached) `scanVault` returns
exactly (markdown files in the always-scan directories) + (markdown
files at or after the cutoff in the recency-scan directories) +
(system files that exist) entries, a formula independent of how many
older files the recency directories hold; and the spec's concrete
scenario: with `TaskNotes/a.md`, `TaskNotes/b.md`, `Emails/new.md`
(mtime now) and `Emails/old.md` (30 days old) under `max_age_days =
14`, the scan yields exactly those three files, `old.md` excluded. -/
theorem C5_scanner_boundedness (cfg : AppConfig) (v : VaultFS) (cwd vaultRoot : String)
    (now : Int) :
    ((scanVault cfg v cwd vaultRoot now none).1.scannedCount =
      (cfg.hot_paths.always_scan.map fun dir =>
          mdStatCount v cwd (normalizePath cwd vaultRoot ++ "/" ++ dir)).sum +
        (cfg.hot_paths.recency_scan.map fun rule =>
          recentMdStatCount v cwd (normalizePath cwd vaultRoot ++ "/" ++ rule.path)
            (now - rule.max_age_days * (24 * 60 * 60 * 1000))).sum +
        systemPresentCount cfg v cwd (normalizePath cwd vaultRoot)) ∧
    (scanVault exCfg (exVault 0) "/" "/vault" 0 none).1.scannedCount = 3 ∧
    ((scanVault exCfg (exVault 0) "/" "/vault" 0 none).1.files.map
      fun f => f.relativePath) = ["TaskNotes/a.md", "TaskNotes/b.md", "Emails/new.md"] := by
  refine ⟨?_, by decide, by decide⟩
  show (scanVaultFresh cfg v cwd vaultRoot now).1.scannedCount = _
  rw [scanVaultFresh]
  simp only [List.length_append, List.length_flatten, List.map_map]
  congr 1
  · congr 1
    · apply congrArg
      apply List.map_eq_map_iff.mpr
      intro dir _
      exact scanDirectory_length_always v cwd _ _ ScanSource.always
    · apply congrArg
      apply List.map_eq_map_iff.mpr
      intro rule _
      exact scanDirectory_length_recency v cwd _ _ ScanSource.recency _
  · rw [length_filterMap_eq_countP, systemPresentCount]
    apply countP_congr_mem
    intro relPath _
    exact scanSingleFile_isSome v cwd _ _ ScanSource.system

/-- C6 counterexample: two `scanVault` calls separated by less than
the TTL (1 s apart, TTL 60 s) can still disagree on `scannedCount`,
because the TTL is measured from the time the cache was populated, not
from the first of the two calls: the first call at t = 59 s is served
from a cache populated at t = 0 (3 files), the second at t = 60 s
rescans a changed vault (4 files). -/
theorem C6_counterexample :
    ((60000 : Int) - 59000 < exCfg.scanner_cache_ttl * 1000) ∧
    ¬ ((scanVault exCfg (exVaultBig 60000) "/" "/vault" 60000
          (scanVault exCfg (exVault 0) "/" "/vault" 59000
            (scanVault exCfg (exVault 0) "/" "/vault" 0 none).2).2).1.scannedCount =
        (scanVault exCfg (exVault 0) "/" "/vault" 59000
          (scanVault exCfg (exVault 0) "/" "/vault" 0 none).2).1.scannedCount) := by
  decide

/-- C6 (amended): when the first call itself populates the cache (a
fresh scan) and the second call comes less than the TTL after it, both
calls return equal `scannedCount`; a result served from cache carries
the original cache timestamp while a freshly scanned result carries a
null `cachedAt`; and the first call after `invalidateCache()` is a
fresh scan with a null cache timestamp. -/
theorem C6_cache_behavior (cfg : AppConfig) (v1 v2 : VaultFS) (cwd root1 root2 : String)
    (now1 now2 : Int)
    (h : now2 - now1 < cfg.scanner_cache_ttl * 1000) :
    (scanVault cfg v1 cwd root1 now1 none).1.cachedAt = none ∧
    (scanVault cfg v2 cwd root2 now2 (scanVault cfg v1 cwd root1 now1 none).2).1.scannedCount =
      (scanVault cfg v1 cwd root1 now1 none).1.scannedCount ∧
    (scanVault cfg v2 cwd root2 now2 (scanVault cfg v1 cwd root1 now1 none).2).1.cachedAt =
      some now1 ∧
    (scanVault cfg v2 cwd root2 now2
      (invalidateCache (scanVault cfg v1 cwd root1 now1 none).2)).1.cachedAt = none := by
  have hfst : scanVault cfg v1 cwd root1 now1 none = scanVaultFresh cfg v1 cwd root1 now1 := rfl
  have hside : (scanVaultFresh cfg v1 cwd root1 now1).2 =
      some ((scanVaultFresh cfg v1 cwd root1 now1).1, now1) := rfl
  refine ⟨rfl, ?_, ?_, rfl⟩
  · rw [hfst, hside]
    show (if now2 - now1 < cfg.scanner_cache_ttl * 1000 then _ else _ :
      ScanResult × ScanCache).1.scannedCount = _
    rw [if_pos h]
  · rw [hfst, hside]
    show (if now2 - now1 < cfg.scanner_cache_ttl * 1000 then _ else _ :
      ScanResult × ScanCache).1.cachedAt = _
    rw [if_pos h]

/-- C6 witness: the amended cache behavior evaluated on the example
vault with the first call at t = 0 and the second at t = 1 s. -/
theorem C6_cache_behavior_witness :
    ((1000 : Int) - 0 < exCfg.scanner_cache_ttl * 1000) ∧
    ((scanVault exCfg (exVault 0) "/" "/vault" 0 none).1.cachedAt = none ∧
     (scanVault exCfg (exVault 0) "/" "/vault" 1000
        (scanVault exCfg (exVault 0) "/" "/vault" 0 none).2).1.scannedCount =
       (scanVault exCfg (exVault 0) "/" "/vault" 0 none).1.scannedCount ∧
     (scanVault exCfg (exVault 0) "/" "/vault" 1000
        (scanVault exCfg (exVault 0) "/" "/vault" 0 none).2).1.cachedAt = some 0 ∧
     (scanVault exCfg (exVault 0) "/" "/vault" 1000
        (invalidateCache (scanVault exCfg (exVault 0) "/" "/vault" 0 none).2)).1.cachedAt =
       none) :=
  ⟨by decide,
    C6_cache_behavior exCfg (exVault 0) (exVault 0) "/" "/vault" "/vault" 0 1000 (by decide)⟩

/-- C9: the scan cache ignores the vault root argument — a call with a
different root within the TTL of a fresh scan of `r1` returns the
snapshot scanned from `r1` (same files and count); only TTL expiry or
`invalidateCache()` makes the call scan the new root `r2`. -/
theorem C9_cache_ignores_root (cfg : AppConfig) (v : VaultFS) (cwd r1 r2 : String)
    (now1 now2 : Int) :
    ((now2 - now1 < cfg.scanner_cache_ttl * 1000) →
      (scanVault cfg v cwd r2 now2 (scanVault cfg v cwd r1 now1 none).2).1.files =
        (scanVault cfg v cwd r1 now1 none).1.files ∧
      (scanVault cfg v cwd r2 now2 (scanVault cfg v cwd r1 now1 none).2).1.scannedCount =
        (scanVault cfg v cwd r1 now1 none).1.scannedCount) ∧
    (¬ (now2 - now1 < cfg.scanner_cache_ttl * 1000) →
      scanVault cfg v cwd r2 now2 (scanVault cfg v cwd r1 now1 none).2 =
        scanVaultFresh cfg v cwd r2 now2) ∧
    scanVault cfg v cwd r2 now2 (invalidateCache (scanVault cfg v cwd r1 now1 none).2) =
      scanVaultFresh cfg v cwd r2 now2 := by
  have hside : (scanVault cfg v cwd r1 now1 none).2 =
      some ((scanVaultFresh cfg v cwd r1 now1).1, now1) := rfl
  refine ⟨?_, ?_, rfl⟩
  · intro h
    rw [hside]
    constructor
    · show (if now2 - now1 < cfg.scanner_cache_ttl * 1000 then _ else _ :
        ScanResult × ScanCache).1.files = _
      rw [if_pos h]
      rfl
    · show (if now2 - now1 < cfg.scanner_cache_ttl * 1000 then _ else _ :
        ScanResult × ScanCache).1.scannedCount = _
      rw [if_pos h]
      rfl
  · intro h
    rw [hside]
    show (if now2 - now1 < cfg.scanner_cache_ttl * 1000 then _ else _ :
      ScanResult × ScanCache) = _
    rw [if_neg h]

/-- C9 witness: with the example vault, a call for root `/other` one
second after a fresh scan of `/vault` returns the `/vault` snapshot;
after the TTL has expired the same call rescans `/other`. -/
theorem C9_cache_ignores_root_witness :
    ((1000 : Int) - 0 < exCfg.scanner_cache_ttl * 1000) ∧
    ((scanVault exCfg (exVault 0) "/" "/other" 1000
        (scanVault exCfg (exVault 0) "/" "/vault" 0 none).2).1.files =
      (scanVault exCfg (exVault 0) "/" "/vault" 0 none).1.files ∧
     (scanVault exCfg (exVault 0) "/" "/other" 1000
        (scanVault exCfg (exVault 0) "/" "/vault" 0 none).2).1.scannedCount =
      (scanVault exCfg (exVault 0) "/" "/vault" 0 none).1.scannedCount) ∧
    scanVault exCfg (exVault 0) "/" "/other" 70000
      (scanVault exCfg (exVault 0) "/" "/vault" 0 none).2 =
      scanVaultFresh exCfg (exVault 0) "/" "/other" 70000 :=
  ⟨by decide,
    (C9_cache_ignores_root exCfg (exVault 0) "/" "/vault" "/other" 0 1000).1 (by decide),
    (C9_cache_ignores_root exCfg (exVault 0) "/" "/vault" "/other" 0 70000).2.1 (by decide)⟩

/-! ## Path reconstruction lemmas for the writer -/

theorem iData_append_single (xs : List (List Char)) (y : List Char) :
    iData (xs ++ [y]) = if xs = [] then y else iData xs ++ '/' :: y := by
  induction xs with
  | nil => simp [iData]
  | cons a rest ih =>
    cases rest with
    | nil => simp [iData]
    | cons b more =>
      rw [List.cons_append, List.cons_append, iData, ← List.cons_append, ih,
        if_neg (by simp), if_neg (by simp), iData]
      simp

theorem takeWhile_left_stop {α : Type} (pred : α → Bool) (l : List α) (c : α) (m : List α)
    (hl : ∀ x ∈ l, pred x = true) (hc : pred c = false) :
    (l ++ c :: m).takeWhile pred = l := by
  induction l with
  | nil => simp [List.takeWhile_cons, hc]
  | cons a rest ih =>
    rw [List.cons_append, List.takeWhile_cons, if_pos (hl a (by simp))]
    rw [ih (fun x hx => hl x (by simp [hx]))]

theorem basenameStr_of_data (p : String) (A b : List Char) (hdata : p.data = A ++ '/' :: b)
    (hb : SepFree b) : basenameStr p = ⟨b⟩ := by
  apply String.ext
  show ((p.data.reverse.takeWhile fun c => !isSep c)).reverse = b
  rw [hdata, List.reverse_append, List.reverse_cons]
  rw [List.append_assoc, List.singleton_append]
  rw [takeWhile_left_stop _ b.reverse '/' A.reverse
    (fun x hx => by simp [hb x (List.mem_reverse.mp hx)]) (by decide)]
  exact List.reverse_reverse b

theorem dirname_of_data (p : String) (A b : List Char) (hdata : p.data = A ++ '/' :: b)
    (hb : SepFree b) : dirname p = if A = [] then "/" else ⟨A⟩ := by
  rw [dirname]
  have hrev : p.data.reverse = b.reverse ++ '/' :: A.reverse := by
    rw [hdata, List.reverse_append, List.reverse_cons, List.append_assoc]
    rfl
  have htake : p.data.reverse.takeWhile (fun c => !isSep c) = b.reverse := by
    rw [hrev]
    exact takeWhile_left_stop _ b.reverse '/' A.reverse
      (fun x hx => by simp [hb x (List.mem_reverse.mp hx)]) (by decide)
  rw [htake, hrev]
  rw [show (b.reverse ++ '/' :: A.reverse).drop b.reverse.length = '/' :: A.reverse from
    List.drop_left b.reverse ('/' :: A.reverse)]
  rcases A with _ | ⟨x, xs⟩
  · rfl
  · rcases hrA : (x :: xs).reverse with _ | ⟨y, ys⟩
    · exact absurd hrA (by simp)
    · rw [if_neg (show ¬ (x :: xs = []) by simp)]
      show String.mk ((y :: ys).reverse) = String.mk (x :: xs)
      have hyx : (y :: ys).reverse = x :: xs := by
        rw [← hrA, List.reverse_reverse]
      rw [hyx]

theorem splitSegsAux_iData_append (segs : List (List Char)) (hne : segs ≠ [])
    (hsf : ∀ s ∈ segs, SepFree s) (r : List Char) :
    splitSegsAux (iData segs ++ '/' :: r) [] = segs ++ splitSegsAux r [] := by
  induction segs with
  | nil => exact absurd rfl hne
  | cons s rest ih =>
    cases rest with
    | nil =>
      rw [iData, splitSegsAux_append_sepFree (hsf s (by simp)) _ [],
        splitSegsAux, if_pos (by decide)]
      simp
    | cons s2 more =>
      rw [iData, List.append_assoc, List.cons_append,
        splitSegsAux_append_sepFree (hsf s (by simp)) _ [],
        splitSegsAux, if_pos (by decide)]
      simp only [List.append_nil, List.reverse_reverse]
      rw [ih (by simp) (fun t ht => hsf t (by simp [ht]))]
      rfl

theorem basenameExt_extname_append (p : String) :
    basenameExt p (extname p) ++ extname p = basenameStr p := by
  apply String.ext
  show (basenameExt p (extname p)).data ++ (extname p).data = (basenameStr p).data
  by_cases h1 : ((basenameStr p).data.reverse.takeWhile (fun c => c ≠ '.')).length =
      (basenameStr p).data.length
  · have hext : extname p = "" := by
      simp only [extname]
      rw [if_pos h1]
    rw [hext, basenameExt, if_neg (fun h => h.1 rfl)]
    simp
  · by_cases h2 : (basenameStr p).data.length -
        ((basenameStr p).data.reverse.takeWhile (fun c => c ≠ '.')).length - 1 = 0
    · have hext : extname p = "" := by
        simp only [extname]
        rw [if_neg h1, if_pos h2]
      rw [hext, basenameExt, if_neg (fun h => h.1 rfl)]
      simp
    · have hle : ((basenameStr p).data.reverse.takeWhile (fun c => c ≠ '.')).length ≤
          (basenameStr p).data.length := by
        have := (List.takeWhile_prefix (l := (basenameStr p).data.reverse)
          (p := fun c => c ≠ '.')).length_le
        simpa using this
      set b := (basenameStr p).data with hb
      set k := b.length - (b.reverse.takeWhile (fun c => c ≠ '.')).length - 1 with hk
      have hklt : k < b.length := by omega
      have hkpos : 1 ≤ k := by omega
      have hext : extname p = ⟨b.drop k⟩ := by
        simp only [extname]
        rw [if_neg h1, if_neg h2]
      have hextne : extname p ≠ "" := by
        rw [hext]
        intro hcon
        have : b.drop k = [] := congrArg String.data hcon
        rw [List.drop_eq_nil_iff] at this
        omega
      have hsuf : (extname p).data.isSuffixOf b = true := by
        rw [hext]
        exact List.isSuffixOf_iff_suffix.mpr (List.drop_suffix k b)
      have hlen : (extname p).length < (basenameStr p).length := by
        rw [hext]
        show (b.drop k).length < b.length
        rw [List.length_drop]
        omega
      have hbase : basenameExt p (extname p) = ⟨b.take k⟩ := by
        rw [basenameExt, if_pos ⟨hextne, hsuf, hlen⟩]
        have harith : (basenameStr p).data.length - (extname p).data.length = k := by
          rw [hext]
          show b.length - (b.drop k).length = k
          rw [List.length_drop]
          omega
        rw [harith]
      rw [hbase, hext]
      show b.take k ++ b.drop k = b
      exact List.take_append_drop k b

theorem joinP_dirname_basename (p : String) (h : IsClean p) (s : List Char)
    (hcs : CleanSeg ((basenameStr p).data ++ s)) :
    joinP (dirname p) ⟨(basenameStr p).data ++ s⟩ = ⟨p.data ++ s⟩ := by
  obtain ⟨segs, hne, hclean, hdata⟩ := h
  obtain ⟨init, b, hsegs⟩ : ∃ init b, segs = init ++ [b] := by
    rcases List.eq_nil_or_concat segs with h | ⟨init, b, h⟩
    · exact absurd h hne
    · exact ⟨init, b, by simpa [List.concat_eq_append] using h⟩
  subst hsegs
  have hbclean : CleanSeg b := hclean b (by simp)
  have hbsf : SepFree b := hbclean.2.2.2
  have hdata2 : p.data = (if init = [] then [] else '/' :: iData init) ++ '/' :: b := by
    rw [hdata, iData_append_single]
    by_cases hinit : init = []
    · simp [hinit]
    · rw [if_neg hinit, if_neg hinit]
      rfl
  have hbase : basenameStr p = ⟨b⟩ := basenameStr_of_data p _ b hdata2 hbsf
  have hdir : dirname p = if (if init = [] then ([] : List Char) else '/' :: iData init) = []
      then "/" else ⟨if init = [] then [] else '/' :: iData init⟩ :=
    dirname_of_data p _ b hdata2 hbsf
  rw [hbase] at hcs ⊢
  show joinP (dirname p) ⟨b ++ s⟩ = ⟨p.data ++ s⟩
  by_cases hinit : init = []
  · subst hinit
    rw [hdir]
    rw [if_pos (by rw [if_pos rfl])]
    rw [joinP]
    have hjdata : ("/" ++ "/" ++ (⟨b ++ s⟩ : String)).data = '/' :: '/' :: (b ++ s) := rfl
    rw [if_pos (by rw [startsWithSep, hjdata]; rfl)]
    have hsplit : splitSegs ("/" ++ "/" ++ (⟨b ++ s⟩ : String)) = [[], [], b ++ s] := by
      rw [splitSegs, hjdata, splitSegsAux, if_pos (by decide), splitSegsAux,
        if_pos (by decide), splitSegsAux_of_sepFree hcs.2.2.2]
      rfl
    rw [hsplit]
    have hcleanfold : cleanSegsAbs [[], [], b ++ s] = [b ++ s] := by
      rw [cleanSegsAbs]
      rw [List.foldl_cons, List.foldl_cons]
      rw [show cleanAbsStep [] [] = [] from rfl, show cleanAbsStep [] [] = [] from rfl]
      rw [foldl_cleanAbs_clean [b ++ s] (by intro t ht; simp at ht; subst ht; exact hcs) []]
      rfl
    rw [hcleanfold]
    apply String.ext
    show '/' :: (b ++ s) = p.data ++ s
    rw [hdata]
    rfl
  · rw [hdir, if_neg (by rw [if_neg hinit]; simp), if_neg hinit]
    rw [joinP]
    have hinitsf : ∀ t ∈ init, SepFree t := fun t ht => (hclean t (by simp [ht])).2.2.2
    have hjdata : ((⟨'/' :: iData init⟩ : String) ++ "/" ++ (⟨b ++ s⟩ : String)).data =
        '/' :: (iData init ++ '/' :: (b ++ s)) := by
      show (('/' :: iData init) ++ ['/']) ++ (b ++ s) = '/' :: (iData init ++ '/' :: (b ++ s))
      simp
    rw [if_pos (by rw [startsWithSep, hjdata]; rfl)]
    have hsplit : splitSegs ((⟨'/' :: iData init⟩ : String) ++ "/" ++ (⟨b ++ s⟩ : String)) =
        [] :: init ++ [b ++ s] := by
      rw [splitSegs, hjdata, splitSegsAux, if_pos (by decide),
        splitSegsAux_iData_append init hinit hinitsf,
        splitSegsAux_of_sepFree hcs.2.2.2]
      rfl
    rw [hsplit]
    have hcleanfold : cleanSegsAbs ([] :: init ++ [b ++ s]) = init ++ [b ++ s] := by
      rw [cleanSegsAbs, List.cons_append, List.foldl_cons,
        show cleanAbsStep [] [] = [] from rfl,
        foldl_cleanAbs_clean (init ++ [b ++ s]) ?_ []]
      · rfl
      · intro t ht
        rcases List.mem_append.mp ht with h | h
        · exact hclean t (by simp [h])
        · simp at h
          subst h
          exact hcs
    rw [hcleanfold]
    apply String.ext
    show '/' :: iData (init ++ [b ++ s]) = p.data ++ s
    rw [iData_append_single, if_neg hinit, hdata, iData_append_single, if_neg hinit]
    simp

theorem sepFree_digits : ∀ fuel n, SepFree (toDecimalAux fuel n) := by
  intro fuel
  induction fuel with
  | zero => intro n c hc; simp [toDecimalAux] at hc
  | succ fuel ih =>
    intro n c hc
    rw [toDecimalAux] at hc
    by_cases h0 : n = 0
    · rw [if_pos h0] at hc; simp at hc
    · rw [if_neg h0] at hc
      rcases List.mem_append.mp hc with h | h
      · exact ih _ c h
      · simp only [List.mem_singleton] at h
        subst h
        have hd : n % 10 < 10 := Nat.mod_lt _ (by norm_num)
        interval_cases hmod : n % 10 <;> simp_all [isSep] <;> decide

theorem sepFree_natToStr (n : Nat) : SepFree (natToStr n).data := by
  rw [natToStr]
  by_cases h0 : n = 0
  · rw [if_pos h0]; intro c hc; simp at hc; subst hc; decide
  · rw [if_neg h0]; exact sepFree_digits _ n

theorem natToStr_ne_nil (n : Nat) : (natToStr n).data ≠ [] := by
  intro hcon
  have := valDec_natToStr n
  rw [hcon] at this
  have h0 : valDec [] = 0 := rfl
  rw [h0] at this
  subst this
  simp [natToStr] at hcon

theorem bakSuffix_eq (i : Nat) : (".bak." ++ natToStr i).data = bakSuffix i := rfl

theorem bakPathAt_clean (p : String) (h : IsClean p) (hb : SepFree (basenameStr p).data)
    (i : Nat) :
    bakPathAt (dirname p) (basenameExt p (extname p)) (extname p) i =
      p ++ ".bak." ++ natToStr i := by
  rw [bakPathAt]
  have hcat : basenameExt p (extname p) ++ extname p ++ ".bak." ++ natToStr i =
      (⟨(basenameStr p).data ++ bakSuffix i⟩ : String) := by
    apply String.ext
    show (((basenameExt p (extname p)).data ++ (extname p).data) ++ ".bak.".data) ++
        (natToStr i).data = (basenameStr p).data ++ bakSuffix i
    rw [show (basenameExt p (extname p)).data ++ (extname p).data = (basenameStr p).data from
      congrArg String.data (basenameExt_extname_append p)]
    rw [List.append_assoc]
    rfl
  rw [hcat]
  have hpos : 0 < (natToStr i).length := by
    show 0 < (natToStr i).data.length
    exact List.length_pos.mpr (natToStr_ne_nil i)
  have hclean2 : CleanSeg ((basenameStr p).data ++ bakSuffix i) := by
    refine ⟨by simp [bakSuffix], ?_, ?_, ?_⟩
    · intro hcon
      have hlen := congrArg List.length hcon
      simp [bakSuffix] at hlen
      omega
    · intro hcon
      have hlen := congrArg List.length hcon
      simp [bakSuffix] at hlen
      omega
    · intro c hc
      rcases List.mem_append.mp hc with hm | hm
      · exact hb c hm
      · rw [bakSuffix] at hm
        simp only [List.mem_cons] at hm
        rcases hm with rfl | rfl | rfl | rfl | rfl | hm
        · decide
        · decide
        · decide
        · decide
        · decide
        · exact sepFree_natToStr i c hm
  rw [joinP_dirname_basename p h (bakSuffix i) hclean2]
  apply String.ext
  show p.data ++ bakSuffix i = (p.data ++ ".bak.".data) ++ (natToStr i).data
  rw [List.append_assoc]
  rfl

theorem string_append_cancel_left {p a b : String} (h : p ++ a = p ++ b) : a = b := by
  apply String.ext
  have := congrArg String.data h
  rw [show (p ++ a).data = p.data ++ a.data from rfl,
    show (p ++ b).data = p.data ++ b.data from rfl] at this
  exact List.append_cancel_left this

theorem tmp_ne_self (p : String) : p ++ ".tmp" ≠ p := by
  intro hcon
  have hd := congrArg String.data hcon
  rw [show (p ++ ".tmp").data = p.data ++ ".tmp".data from rfl] at hd
  have hlen := congrArg List.length hd
  simp [List.length_append] at hlen

theorem bak_ne_self (p : String) (i : Nat) : p ++ ".bak." ++ natToStr i ≠ p := by
  intro hcon
  have hpos : 0 < (natToStr i).data.length := List.length_pos.mpr (natToStr_ne_nil i)
  have hd := congrArg String.data hcon
  rw [show ((p ++ ".bak.") ++ natToStr i).data = (p.data ++ ".bak.".data) ++
    (natToStr i).data from rfl] at hd
  have hlen := congrArg List.length hd
  simp [List.length_append] at hlen

theorem bak_ne_tmp (p : String) (i : Nat) : p ++ ".bak." ++ natToStr i ≠ p ++ ".tmp" := by
  intro hcon
  rw [String.append_assoc] at hcon
  have h2 := string_append_cancel_left hcon
  have h3 := congrArg String.data h2
  rw [show ((".bak." : String) ++ natToStr i).data = ".bak.".data ++ (natToStr i).data
    from rfl] at h3
  rw [show ((".bak." : String)).data = ['.', 'b', 'a', 'k', '.'] from rfl,
    show ((".tmp" : String)).data = ['.', 't', 'm', 'p'] from rfl] at h3
  simp at h3

theorem bak_index_inj (p : String) {i j : Nat}
    (h : p ++ ".bak." ++ natToStr i = p ++ ".bak." ++ natToStr j) : i = j := by
  rw [String.append_assoc, String.append_assoc] at h
  have h2 := string_append_cancel_left h
  have h3 := congrArg String.data h2
  rw [show ((".bak." : String) ++ natToStr i).data = ".bak.".data ++ (natToStr i).data
      from rfl,
    show ((".bak." : String) ++ natToStr j).data = ".bak.".data ++ (natToStr j).data
      from rfl] at h3
  exact natToStr_inj (String.ext (List.append_cancel_left h3))

/-! ## Writer execution and frame lemmas -/

theorem basenameStr_sepFree_of_clean {p : String} (h : IsClean p) :
    SepFree (basenameStr p).data := by
  obtain ⟨segs, hne, hclean, hdata⟩ := h
  obtain ⟨init, b, hsegs⟩ : ∃ init b, segs = init ++ [b] := by
    rcases List.eq_nil_or_concat segs with h | ⟨init, b, h⟩
    · exact absurd h hne
    · exact ⟨init, b, by simpa [List.concat_eq_append] using h⟩
  subst hsegs
  have hbsf : SepFree b := (hclean b (by simp)).2.2.2
  have hdata2 : p.data = (if init = [] then [] else '/' :: iData init) ++ '/' :: b := by
    rw [hdata, iData_append_single]
    by_cases hinit : init = []
    · simp [hinit]
    · rw [if_neg hinit, if_neg hinit]
      rfl
  rw [basenameStr_of_data p _ b hdata2 hbsf]
  exact hbsf

theorem fsMkdir_ok (orc : Oracle) (d : String) (st : St)
    (ho : orc st.ctr OpKind.mkdir = none) :
    fsMkdir orc d st = (.ok (), { st with ctr := st.ctr + 1 }) := by
  rw [fsMkdir, popEff, ho]

theorem writeWithRetry_first_ok (orc : Oracle) (p c : String) (st : St)
    (ho : orc st.ctr OpKind.write = none) :
    writeWithRetry orc p c st =
      (.ok (), { st with fs := setF st.fs p c, ctr := st.ctr + 1 }) := by
  rw [writeWithRetry, withRetry]
  show withRetryGo _ (4 + 1) 0 st = _
  rw [withRetryGo]
  rw [show fsWrite orc p c st =
      (.ok (), { st with fs := setF st.fs p c, ctr := st.ctr + 1 }) from by
    rw [fsWrite, popEff, ho]]

theorem copyWithRetry_first_ok (orc : Oracle) (src dst : String) (st : St) (v : String)
    (hv : lookupF st.fs src = some v) (ho : orc st.ctr OpKind.copy = none) :
    copyWithRetry orc src dst st =
      (.ok (), { st with fs := setF st.fs dst v, ctr := st.ctr + 1 }) := by
  rw [copyWithRetry, withRetry]
  show withRetryGo _ (4 + 1) 0 st = _
  rw [withRetryGo]
  rw [show fsCopy orc src dst st =
      (.ok (), { st with fs := setF st.fs dst v, ctr := st.ctr + 1 }) from by
    rw [fsCopy, popEff, ho]
    simp only [hv]]

theorem copyWithRetry_first_fatal (orc : Oracle) (src dst : String) (st : St)
    (code : String) (junk : Option String)
    (ho : orc st.ctr OpKind.copy = some ⟨code, junk⟩)
    (hcode : RETRYABLE_CODES.contains code = false) :
    copyWithRetry orc src dst st =
      (.error code, applyJunk dst junk { st with ctr := st.ctr + 1 }) := by
  rw [copyWithRetry, withRetry]
  show withRetryGo _ (4 + 1) 0 st = _
  rw [withRetryGo]
  rw [show fsCopy orc src dst st =
      (.error code, applyJunk dst junk { st with ctr := st.ctr + 1 }) from by
    rw [fsCopy, popEff, ho]]
  have hguard : (RETRYABLE_CODES.contains code && decide (0 < RETRY_DELAYS.length)) = false := by
    rw [hcode, Bool.false_and]
  simp only [hguard, Bool.false_eq_true, if_false]

theorem deleteQuietly_ctr (orc : Oracle) (p : String) (st : St) :
    (deleteQuietly orc p st).ctr = st.ctr + 1 := by
  rw [deleteQuietly, fsUnlink, popEff]
  cases ho : orc st.ctr OpKind.unlink with
  | none =>
    simp only
    cases hl : lookupF st.fs p with
    | none => rfl
    | some c => rfl
  | some e => rfl

theorem deleteQuietly_lookup_other (orc : Oracle) (p q : String) (st : St) (hq : q ≠ p) :
    lookupF (deleteQuietly orc p st).fs q = lookupF st.fs q := by
  rw [deleteQuietly, fsUnlink, popEff]
  cases ho : orc st.ctr OpKind.unlink with
  | none =>
    simp only
    cases hl : lookupF st.fs p with
    | none => rfl
    | some c =>
      simp only
      rw [lookupF_eraseF, if_neg hq]
  | some e => rfl

theorem deleteQuietly_sleeps (orc : Oracle) (p : String) (st : St) :
    (deleteQuietly orc p st).sleeps = st.sleeps := by
  rw [deleteQuietly, fsUnlink, popEff]
  cases ho : orc st.ctr OpKind.unlink with
  | none =>
    simp only
    cases hl : lookupF st.fs p with
    | none => rfl
    | some c => rfl
  | some e => rfl

theorem fsRename_ctr (orc : Oracle) (src dst : String) (st : St) :
    (fsRename orc src dst st).2.ctr = st.ctr + 1 := by
  rw [fsRename, popEff]
  cases ho : orc st.ctr OpKind.rename with
  | none =>
    simp only
    cases hl : lookupF st.fs src with
    | none => rfl
    | some c => rfl
  | some e => rfl

theorem fsRename_lookup_other (orc : Oracle) (src dst q : String) (st : St)
    (h1 : q ≠ src) (h2 : q ≠ dst) :
    lookupF (fsRename orc src dst st).2.fs q = lookupF st.fs q := by
  rw [fsRename, popEff]
  cases ho : orc st.ctr OpKind.rename with
  | none =>
    simp only
    cases hl : lookupF st.fs src with
    | none => rfl
    | some c =>
      simp only
      rw [lookupF_setF, if_neg (fun h => h2 h.symm), lookupF_eraseF, if_neg h1]
  | some e => rfl

theorem fsRename_sleeps (orc : Oracle) (src dst : String) (st : St) :
    (fsRename orc src dst st).2.sleeps = st.sleeps := by
  rw [fsRename, popEff]
  cases ho : orc st.ctr OpKind.rename with
  | none =>
    simp only
    cases hl : lookupF st.fs src with
    | none => rfl
    | some c => rfl
  | some e => rfl

theorem rotateLoop_ctr (orc : Oracle) (dir base ext : String) (maxB : Nat) :
    ∀ i st, (rotateLoop orc dir base ext maxB i st).ctr = st.ctr + i := by
  intro i
  induction i with
  | zero => intro st; rfl
  | succ i ih =>
    intro st
    rw [rotateLoop]
    by_cases h : i + 1 = maxB
    · rw [if_pos h, ih, deleteQuietly_ctr]
      omega
    · rw [if_neg h, ih, fsRename_ctr]
      omega

theorem rotateLoop_lookup_other (orc : Oracle) (dir base ext : String) (maxB : Nat)
    (q : String) (hq : ∀ j, 1 ≤ j → j ≤ maxB → q ≠ bakPathAt dir base ext j) :
    ∀ i st, i ≤ maxB →
      lookupF (rotateLoop orc dir base ext maxB i st).fs q = lookupF st.fs q := by
  intro i
  induction i with
  | zero => intro st _; rfl
  | succ i ih =>
    intro st hi
    simp only [rotateLoop]
    by_cases h : i + 1 = maxB
    · rw [if_pos h, ih _ (by omega), deleteQuietly_lookup_other orc _ q st
        (hq (i + 1) (by omega) (by omega))]
    · rw [if_neg h, ih _ (by omega), fsRename_lookup_other orc _ _ q st
        (hq (i + 1) (by omega) (by omega)) (hq (i + 2) (by omega) (by omega))]

theorem createBackup_exists (orc : Oracle) (p : String) (N : Nat) (st : St) (orig : String)
    (hclean : IsClean p) (horig : lookupF st.fs p = some orig)
    (ha : orc st.ctr OpKind.access = none)
    (hc : orc (st.ctr + 1 + N) OpKind.copy = none) :
    ∃ st3 : St,
      createBackup orc p N st = (.ok (some (p ++ ".bak." ++ natToStr 1)), st3) ∧
      st3.ctr = st.ctr + N + 2 ∧
      st3.fs = setF (rotateLoop orc (dirname p) (basenameExt p (extname p)) (extname p)
        N N { st with ctr := st.ctr + 1 }).fs (p ++ ".bak." ++ natToStr 1) orig := by
  have hsf := basenameStr_sepFree_of_clean hclean
  have hbak : ∀ i, bakPathAt (dirname p) (basenameExt p (extname p)) (extname p) i =
      p ++ ".bak." ++ natToStr i := bakPathAt_clean p hclean hsf
  rw [createBackup]
  rw [show fsAccess orc p st = (.ok (), { st with ctr := st.ctr + 1 }) from by
    rw [fsAccess, popEff, ha]
    simp only [horig]]
  simp only
  set st2 := rotateLoop orc (dirname p) (basenameExt p (extname p)) (extname p) N N
    { st with ctr := st.ctr + 1 } with hst2
  have hctr2 : st2.ctr = st.ctr + 1 + N := by rw [hst2, rotateLoop_ctr]
  have hlookup2 : lookupF st2.fs p = some orig := by
    rw [hst2, rotateLoop_lookup_other orc _ _ _ N p ?_ N _ (le_refl N)]
    · exact horig
    · intro j h1 h2
      rw [hbak j]
      exact (bak_ne_self p j).symm
  rw [show fsCopy orc p (bakPathAt (dirname p) (basenameExt p (extname p)) (extname p) 1)
      st2 = (.ok (), { st2 with
        fs := setF st2.fs (bakPathAt (dirname p) (basenameExt p (extname p)) (extname p) 1)
          orig
        ctr := st2.ctr + 1 }) from by
    rw [fsCopy, popEff, hctr2, hc]
    simp only [hlookup2]]
  refine ⟨{ fs := setF st2.fs (bakPathAt (dirname p) (basenameExt p (extname p)) (extname p) 1)
              orig
            ctr := st2.ctr + 1
            sleeps := st2.sleeps }, ?_, ?_, ?_⟩
  · show (Except.ok (some (bakPathAt (dirname p) (basenameExt p (extname p)) (extname p) 1)),
      ({ fs := setF st2.fs (bakPathAt (dirname p) (basenameExt p (extname p)) (extname p) 1)
            orig
         ctr := st2.ctr + 1
         sleeps := st2.sleeps } : St)) = _
    rw [hbak 1]
  · show st2.ctr + 1 = st.ctr + N + 2
    omega
  · show setF st2.fs (bakPathAt (dirname p) (basenameExt p (extname p)) (extname p) 1) orig =
      setF st2.fs (p ++ ".bak." ++ natToStr 1) orig
    rw [hbak 1]

theorem safeWriteAttempt_all_ok (p content : String) (N : Nat) (st : St) (orig : String)
    (hclean : IsClean p) (horig : lookupF st.fs p = some orig) :
    ∃ stA : St,
      safeWriteAttempt okOracle p content true N (p ++ ".tmp") st =
        (.ok (some (p ++ ".bak." ++ natToStr 1)), stA) ∧
      lookupF stA.fs p = some content ∧
      lookupF stA.fs (p ++ ".bak." ++ natToStr 1) = some orig := by
  have hsf := basenameStr_sepFree_of_clean hclean
  have hbak : ∀ i, bakPathAt (dirname p) (basenameExt p (extname p)) (extname p) i =
      p ++ ".bak." ++ natToStr i := bakPathAt_clean p hclean hsf
  have hmk : fsMkdir okOracle (dirname p) st = (.ok (), { st with ctr := st.ctr + 1 }) :=
    fsMkdir_ok okOracle (dirname p) st rfl
  have hwr : writeWithRetry okOracle (p ++ ".tmp") content { st with ctr := st.ctr + 1 } =
      (.ok (), { st with fs := setF st.fs (p ++ ".tmp") content, ctr := st.ctr + 1 + 1 }) :=
    writeWithRetry_first_ok okOracle _ _ _ rfl
  have horig2 : lookupF (setF st.fs (p ++ ".tmp") content) p = some orig := by
    rw [lookupF_setF, if_neg (tmp_ne_self p)]
    exact horig
  obtain ⟨st3, hcb, hctr3, hfs3⟩ :=
    createBackup_exists okOracle p N
      { st with fs := setF st.fs (p ++ ".tmp") content, ctr := st.ctr + 1 + 1 }
      orig hclean horig2 rfl rfl
  have htmp3 : lookupF st3.fs (p ++ ".tmp") = some content := by
    rw [hfs3, lookupF_setF, if_neg (bak_ne_tmp p 1),
      rotateLoop_lookup_other okOracle _ _ _ N (p ++ ".tmp") ?_ N _ (le_refl N)]
    · show lookupF (setF st.fs (p ++ ".tmp") content) (p ++ ".tmp") = some content
      rw [lookupF_setF, if_pos rfl]
    · intro j h1 h2
      rw [hbak j]
      exact (bak_ne_tmp p j).symm
  have hcp := copyWithRetry_first_ok okOracle (p ++ ".tmp") p st3 content htmp3 rfl
  refine ⟨{ st3 with fs := setF st3.fs p content, ctr := st3.ctr + 1 }, ?_, ?_, ?_⟩
  · simp only [safeWriteAttempt, hmk, hwr, hcb, hcp, if_true]
  · show lookupF (setF st3.fs p content) p = some content
    rw [lookupF_setF, if_pos rfl]
  · show lookupF (setF st3.fs p content) (p ++ ".bak." ++ natToStr 1) = some orig
    rw [lookupF_setF, if_neg (fun h => bak_ne_self p 1 h.symm), hfs3,
      lookupF_setF, if_pos rfl]

theorem safeWriteAttempt_final_copy_fails (p content junk : String) (N : Nat) (st : St)
    (orig : String) (hctr : st.ctr = 0)
    (hclean : IsClean p) (horig : lookupF st.fs p = some orig) :
    ∃ stB : St,
      safeWriteAttempt (failAt (N + 4) "ENOSPC" (some junk)) p content true N
        (p ++ ".tmp") st =
        (.error ("ENOSPC", some (p ++ ".bak." ++ natToStr 1)), stB) ∧
      lookupF stB.fs (p ++ ".bak." ++ natToStr 1) = some orig ∧
      stB.ctr = N + 5 := by
  have hone : ∀ (n : Nat) (k : OpKind), n ≠ N + 4 →
      failAt (N + 4) "ENOSPC" (some junk) n k = none := by
    intro n k h
    simp only [failAt]
    rw [if_neg h]
  have hmk : fsMkdir (failAt (N + 4) "ENOSPC" (some junk)) (dirname p) st =
      (.ok (), { st with ctr := st.ctr + 1 }) :=
    fsMkdir_ok _ _ _ (hone st.ctr _ (by omega))
  have hwr : writeWithRetry (failAt (N + 4) "ENOSPC" (some junk)) (p ++ ".tmp") content
      { st with ctr := st.ctr + 1 } =
      (.ok (), { st with fs := setF st.fs (p ++ ".tmp") content, ctr := st.ctr + 1 + 1 }) :=
    writeWithRetry_first_ok _ _ _ _ (hone (st.ctr + 1) _ (by omega))
  have horig2 : lookupF (setF st.fs (p ++ ".tmp") content) p = some orig := by
    rw [lookupF_setF, if_neg (tmp_ne_self p)]
    exact horig
  obtain ⟨st3, hcb, hctr3, hfs3⟩ :=
    createBackup_exists (failAt (N + 4) "ENOSPC" (some junk)) p N
      { st with fs := setF st.fs (p ++ ".tmp") content, ctr := st.ctr + 1 + 1 }
      orig hclean horig2 (hone (st.ctr + 1 + 1) _ (by omega))
      (hone (st.ctr + 1 + 1 + 1 + N) _ (by omega))
  have hctr3b : st3.ctr = N + 4 := by
    rw [hctr3]
    show st.ctr + 1 + 1 + N + 2 = N + 4
    omega
  have hfail : failAt (N + 4) "ENOSPC" (some junk) st3.ctr OpKind.copy =
      some ⟨"ENOSPC", some junk⟩ := by
    rw [hctr3b]
    simp only [failAt]
    rw [if_pos trivial]
  have hcp := copyWithRetry_first_fatal _ (p ++ ".tmp") p st3 "ENOSPC" (some junk)
    hfail (by decide)
  refine ⟨{ st3 with fs := setF st3.fs p junk, ctr := st3.ctr + 1 }, ?_, ?_, ?_⟩
  · simp only [safeWriteAttempt, hmk, hwr, hcb, hcp, if_true, applyJunk]
  · show lookupF (setF st3.fs p junk) (p ++ ".bak." ++ natToStr 1) = some orig
    rw [lookupF_setF, if_neg (fun h => bak_ne_self p 1 h.symm), hfs3,
      lookupF_setF, if_pos rfl]
  · show st3.ctr + 1 = N + 5
    omega

/-- C1: atomicity of `safeWriteFile` for a backup-enabled write to an
existing file within the vault root: with no failure injected the call
succeeds and the target holds exactly the new content (the prior
content preserved in `.bak.1`, no temp file left); and when the final
copy step is forced to fail — corrupting the target with arbitrary
junk — after the backup was created, the call reports failure and the
target's content after the call equals its content before the call,
restored by the rollback from the backup. -/
theorem C1_safeWrite_atomicity (cwd filePath content junk orig : String)
    (options : SafeWriteOptions) (st : St)
    (hctr : st.ctr = 0)
    (hclean : IsClean (normalizePath cwd filePath))
    (hpass : isWithinRoot cwd (normalizePath cwd filePath)
      (normalizePath cwd options.vaultRoot) = true)
    (hbackup : options.backup ≠ some false)
    (horig : lookupF st.fs (normalizePath cwd filePath) = some orig) :
    ((safeWriteFile okOracle cwd filePath content options st).1.success = true ∧
      lookupF (safeWriteFile okOracle cwd filePath content options st).2.fs
        (normalizePath cwd filePath) = some content ∧
      lookupF (safeWriteFile okOracle cwd filePath content options st).2.fs
        (normalizePath cwd filePath ++ ".tmp") = none ∧
      lookupF (safeWriteFile okOracle cwd filePath content options st).2.fs
        (normalizePath cwd filePath ++ ".bak." ++ natToStr 1) = some orig) ∧
    ((safeWriteFile (failAt (options.maxBackups.getD MAX_BACKUPS + 4) "ENOSPC" (some junk))
        cwd filePath content options st).1.success = false ∧
      lookupF (safeWriteFile (failAt (options.maxBackups.getD MAX_BACKUPS + 4) "ENOSPC"
          (some junk)) cwd filePath content options st).2.fs
        (normalizePath cwd filePath) = some orig) := by
  have hsb : (options.backup != some false) = true := by
    rw [bne_iff_ne]
    exact hbackup
  constructor
  · obtain ⟨stA, hatt, htgt, hbak1⟩ := safeWriteAttempt_all_ok (normalizePath cwd filePath)
      content (options.maxBackups.getD MAX_BACKUPS) st orig hclean horig
    simp only [safeWriteFile, hpass, Bool.not_true, Bool.false_eq_true, if_false, hsb, hatt]
    refine ⟨trivial, ?_, ?_, ?_⟩
    · rw [deleteQuietly_lookup_other okOracle _ _ _ (fun h => tmp_ne_self _ h.symm)]
      exact htgt
    · exact deleteQuietly_lookup_self okOracle _ _ (fun _ => rfl)
    · rw [deleteQuietly_lookup_other okOracle _ _ _
        (bak_ne_tmp (normalizePath cwd filePath) 1)]
      exact hbak1
  · obtain ⟨stB, hatt, hbak1B, hctrB⟩ := safeWriteAttempt_final_copy_fails
      (normalizePath cwd filePath) content junk (options.maxBackups.getD MAX_BACKUPS)
      st orig hctr hclean horig
    have hnone : failAt (options.maxBackups.getD MAX_BACKUPS + 4) "ENOSPC" (some junk)
        stB.ctr OpKind.copy = none := by
      rw [hctrB]
      simp only [failAt]
      rw [if_neg (by omega)]
    have hcpB := copyWithRetry_first_ok
      (failAt (options.maxBackups.getD MAX_BACKUPS + 4) "ENOSPC" (some junk))
      (normalizePath cwd filePath ++ ".bak." ++ natToStr 1) (normalizePath cwd filePath)
      stB orig hbak1B hnone
    simp only [safeWriteFile, hpass, Bool.not_true, Bool.false_eq_true, if_false, hsb,
      hatt, hcpB]
    refine ⟨trivial, ?_⟩
    rw [deleteQuietly_lookup_other _ _ _ _ (fun h => tmp_ne_self _ h.symm)]
    show lookupF (setF stB.fs (normalizePath cwd filePath) orig)
      (normalizePath cwd filePath) = some orig
    rw [lookupF_setF, if_pos rfl]

theorem cleanSeg_of_check (s : List Char) (h1 : s ≠ []) (h2 : s ≠ ['.'])
    (h3 : s ≠ ['.', '.']) (h4 : s.all (fun c => !isSep c) = true) : CleanSeg s :=
  ⟨h1, h2, h3, fun c hc => by
    have := List.all_eq_true.mp h4 c hc
    simpa using this⟩

/-- C1 witness: the atomicity theorem evaluated at a concrete vault
file holding `old`, written with `new`, with junk `JUNK` injected at
the forced final-copy failure. -/
theorem C1_safeWrite_atomicity_witness :
    (c1St.ctr = 0 ∧
     isWithinRoot "/" (normalizePath "/" "/vault/x.md") (normalizePath "/" "/vault") = true ∧
     c1Opts.backup ≠ some false ∧
     lookupF c1St.fs (normalizePath "/" "/vault/x.md") = some "old") ∧
    ((safeWriteFile okOracle "/" "/vault/x.md" "new" c1Opts c1St).1.success = true ∧
      lookupF (safeWriteFile okOracle "/" "/vault/x.md" "new" c1Opts c1St).2.fs
        (normalizePath "/" "/vault/x.md") = some "new" ∧
      lookupF (safeWriteFile okOracle "/" "/vault/x.md" "new" c1Opts c1St).2.fs
        (normalizePath "/" "/vault/x.md" ++ ".tmp") = none ∧
      lookupF (safeWriteFile okOracle "/" "/vault/x.md" "new" c1Opts c1St).2.fs
        (normalizePath "/" "/vault/x.md" ++ ".bak." ++ natToStr 1) = some "old") ∧
    ((safeWriteFile (failAt (c1Opts.maxBackups.getD MAX_BACKUPS + 4) "ENOSPC" (some "JUNK"))
        "/" "/vault/x.md" "new" c1Opts c1St).1.success = false ∧
      lookupF (safeWriteFile (failAt (c1Opts.maxBackups.getD MAX_BACKUPS + 4) "ENOSPC"
          (some "JUNK")) "/" "/vault/x.md" "new" c1Opts c1St).2.fs
        (normalizePath "/" "/vault/x.md") = some "old") := by
  have hclean : IsClean (normalizePath "/" "/vault/x.md") := by
    rw [show normalizePath "/" "/vault/x.md" = "/vault/x.md" from by decide]
    refine ⟨[['v', 'a', 'u', 'l', 't'], ['x', '.', 'm', 'd']], by decide, ?_, by decide⟩
    intro s hs
    fin_cases hs <;> exact cleanSeg_of_check _ (by decide) (by decide) (by decide) (by decide)
  have h := C1_safeWrite_atomicity "/" "/vault/x.md" "new" "JUNK" "old" c1Opts c1St
    rfl hclean (by decide) (by decide) (by decide)
  exact ⟨⟨rfl, by decide, by decide, by decide⟩, h.1, h.2⟩

theorem fsRename_ok_shift (src dst : String) (st : St) (hne : dst ≠ src)
    (hdst : lookupF st.fs dst = none) :
    lookupF (fsRename okOracle src dst st).2.fs dst = lookupF st.fs src ∧
    lookupF (fsRename okOracle src dst st).2.fs src = none := by
  have hoc : okOracle st.ctr OpKind.rename = none := rfl
  rw [fsRename, popEff, hoc]
  cases hl : lookupF st.fs src with
  | none =>
    simp only [hl]
    exact ⟨hdst, trivial⟩
  | some v =>
    simp only [hl]
    constructor
    · show lookupF (setF (eraseF st.fs src) dst v) dst = some v
      rw [lookupF_setF, if_pos rfl]
    · show lookupF (setF (eraseF st.fs src) dst v) src = none
      rw [lookupF_setF, if_neg hne, lookupF_eraseF, if_pos rfl]

theorem rotateLoop_frame_tight (orc : Oracle) (dir base ext : String) (maxB : Nat)
    (q : String) :
    ∀ i st, i ≤ maxB →
      (∀ j, 1 ≤ j → j ≤ maxB → j ≤ i + 1 → q ≠ bakPathAt dir base ext j) →
      lookupF (rotateLoop orc dir base ext maxB i st).fs q = lookupF st.fs q := by
  intro i
  induction i with
  | zero => intro st _ _; rfl
  | succ i ih =>
    intro st hi hq
    simp only [rotateLoop]
    by_cases h : i + 1 = maxB
    · rw [if_pos h, ih _ (by omega) (fun j h1 h2 h3 => hq j h1 h2 (by omega)),
        deleteQuietly_lookup_other orc _ q st (hq (i + 1) (by omega) (by omega) (by omega))]
    · rw [if_neg h, ih _ (by omega) (fun j h1 h2 h3 => hq j h1 h2 (by omega)),
        fsRename_lookup_other orc _ _ q st
          (hq (i + 1) (by omega) (by omega) (by omega))
          (hq (i + 2) (by omega) (by omega) (by omega))]

theorem rotateLoop_renames (dir base ext : String) (maxB : Nat)
    (hinj : ∀ {a b : Nat}, bakPathAt dir base ext a = bakPathAt dir base ext b → a = b) :
    ∀ i st, i + 1 ≤ maxB →
      lookupF st.fs (bakPathAt dir base ext (i + 1)) = none →
      ((∀ j, 1 ≤ j → j ≤ i →
        lookupF (rotateLoop okOracle dir base ext maxB i st).fs
          (bakPathAt dir base ext (j + 1)) = lookupF st.fs (bakPathAt dir base ext j)) ∧
       (1 ≤ i → lookupF (rotateLoop okOracle dir base ext maxB i st).fs
          (bakPathAt dir base ext 1) = none)) := by
  intro i
  induction i with
  | zero =>
    intro st _ _
    exact ⟨fun j h1 h2 => absurd (h1.trans h2) (by decide),
      fun h => absurd h (by decide)⟩
  | succ i ih =>
    intro st hle hpre
    simp only [rotateLoop]
    rw [if_neg (show ¬ i + 1 = maxB by omega)]
    have hnedst : bakPathAt dir base ext (i + 2) ≠ bakPathAt dir base ext (i + 1) := by
      intro h
      have := hinj h
      omega
    obtain ⟨hsh1, hsh2⟩ := fsRename_ok_shift (bakPathAt dir base ext (i + 1))
      (bakPathAt dir base ext (i + 2)) st hnedst hpre
    obtain ⟨ihshift, ihb1⟩ := ih ((fsRename okOracle (bakPathAt dir base ext (i + 1))
      (bakPathAt dir base ext (i + 2)) st).2) (by omega) hsh2
    constructor
    · intro j h1 h2
      by_cases hji : j ≤ i
      · rw [ihshift j h1 hji]
        exact fsRename_lookup_other okOracle _ _ _ _
          (fun h => by have := hinj h; omega)
          (fun h => by have := hinj h; omega)
      · have hj : j = i + 1 := by omega
        subst hj
        rw [rotateLoop_frame_tight okOracle dir base ext maxB _ i _ (by omega)
          (fun jj hj1 hj2 hj3 h => by have := hinj h; omega)]
        exact hsh1
    · intro _
      by_cases hi0 : 1 ≤ i
      · exact ihb1 hi0
      · have hi : i = 0 := by omega
        subst hi
        show lookupF (rotateLoop okOracle dir base ext maxB 0 _).fs _ = none
        rw [rotateLoop]
        exact hsh2

theorem rotation_full_ok (dir base ext : String) (maxB : Nat) (hmax : 1 ≤ maxB)
    (hinj : ∀ {a b : Nat}, bakPathAt dir base ext a = bakPathAt dir base ext b → a = b)
    (st : St) :
    (lookupF (rotateLoop okOracle dir base ext maxB maxB st).fs
      (bakPathAt dir base ext 1) = none) ∧
    (∀ j, 2 ≤ j → j ≤ maxB →
      lookupF (rotateLoop okOracle dir base ext maxB maxB st).fs
        (bakPathAt dir base ext j) =
      lookupF st.fs (bakPathAt dir base ext (j - 1))) := by
  rcases maxB with _ | m
  · exact absurd hmax (by decide)
  · have hstep : rotateLoop okOracle dir base ext (m + 1) (m + 1) st =
        rotateLoop okOracle dir base ext (m + 1) m
          (deleteQuietly okOracle (bakPathAt dir base ext (m + 1)) st) := by
      rw [rotateLoop, if_pos rfl]
    have hpre : lookupF (deleteQuietly okOracle (bakPathAt dir base ext (m + 1)) st).fs
        (bakPathAt dir base ext (m + 1)) = none :=
      deleteQuietly_lookup_self okOracle _ _ (fun _ => rfl)
    obtain ⟨hshift, hb1⟩ := rotateLoop_renames dir base ext (m + 1) hinj m
      (deleteQuietly okOracle (bakPathAt dir base ext (m + 1)) st) (by omega) hpre
    constructor
    · rw [hstep]
      by_cases hm : 1 ≤ m
      · exact hb1 hm
      · have hm0 : m = 0 := by omega
        subst hm0
        show lookupF (rotateLoop okOracle dir base ext 1 0 _).fs _ = none
        rw [rotateLoop]
        exact hpre
    · intro j h2 hjm
      rw [hstep]
      have hj : j = (j - 1) + 1 := by omega
      rw [hj, hshift (j - 1) (by omega) (by omega)]
      rw [deleteQuietly_lookup_other okOracle _ _ _
        (fun h => by have := hinj h; omega)]
      rw [show j - 1 + 1 - 1 = j - 1 from by omega]

theorem createBackup_missing (orc : Oracle) (p : String) (N : Nat) (st : St)
    (hmiss : lookupF st.fs p = none) (ha : orc st.ctr OpKind.access = none) :
    createBackup orc p N st = (.ok none, { st with ctr := st.ctr + 1 }) := by
  rw [createBackup]
  rw [show fsAccess orc p st = (.error "ENOENT", { st with ctr := st.ctr + 1 }) from by
    rw [fsAccess, popEff, ha]
    simp only [hmiss]]

theorem safeWriteAttempt_ok_fresh (p c : String) (N : Nat) (st : St)
    (hmiss : lookupF st.fs p = none) :
    safeWriteAttempt okOracle p c true N (p ++ ".tmp") st =
      (.ok none, { st with fs := setF (setF st.fs (p ++ ".tmp") c) p c, ctr := st.ctr + 4 }) := by
  have hmk : fsMkdir okOracle (dirname p) st = (.ok (), { st with ctr := st.ctr + 1 }) :=
    fsMkdir_ok okOracle (dirname p) st rfl
  have hwr : writeWithRetry okOracle (p ++ ".tmp") c { st with ctr := st.ctr + 1 } =
      (.ok (), { st with fs := setF st.fs (p ++ ".tmp") c, ctr := st.ctr + 1 + 1 }) :=
    writeWithRetry_first_ok okOracle _ _ _ rfl
  have hmiss2 : lookupF (setF st.fs (p ++ ".tmp") c) p = none := by
    rw [lookupF_setF, if_neg (tmp_ne_self p)]
    exact hmiss
  have hcb := createBackup_missing okOracle p N
    { st with fs := setF st.fs (p ++ ".tmp") c, ctr := st.ctr + 1 + 1 } hmiss2 rfl
  have htmp : lookupF (setF st.fs (p ++ ".tmp") c) (p ++ ".tmp") = some c := by
    rw [lookupF_setF, if_pos rfl]
  have hcp := copyWithRetry_first_ok okOracle (p ++ ".tmp") p
    { st with fs := setF st.fs (p ++ ".tmp") c, ctr := st.ctr + 1 + 1 + 1 } c htmp rfl
  simp only [safeWriteAttempt, hmk, hwr, hcb, hcp, if_true]

theorem safeWriteAttempt_ok_existing (p c : String) (N : Nat) (st : St) (h : String)
    (hmax : 1 ≤ N) (hclean : IsClean p) (htgt : lookupF st.fs p = some h) :
    ∃ stA : St,
      safeWriteAttempt okOracle p c true N (p ++ ".tmp") st =
        (.ok (some (p ++ ".bak." ++ natToStr 1)), stA) ∧
      lookupF stA.fs p = some c ∧
      lookupF stA.fs (p ++ ".bak." ++ natToStr 1) = some h ∧
      (∀ j, 2 ≤ j → j ≤ N → lookupF stA.fs (p ++ ".bak." ++ natToStr j) =
        lookupF st.fs (p ++ ".bak." ++ natToStr (j - 1))) ∧
      (∀ j, N < j → lookupF stA.fs (p ++ ".bak." ++ natToStr j) =
        lookupF st.fs (p ++ ".bak." ++ natToStr j)) := by
  have hsf := basenameStr_sepFree_of_clean hclean
  have hbak : ∀ i, bakPathAt (dirname p) (basenameExt p (extname p)) (extname p) i =
      p ++ ".bak." ++ natToStr i := bakPathAt_clean p hclean hsf
  have hinj : ∀ {a b : Nat},
      bakPathAt (dirname p) (basenameExt p (extname p)) (extname p) a =
        bakPathAt (dirname p) (basenameExt p (extname p)) (extname p) b → a = b := by
    intro a b heq
    rw [hbak a, hbak b] at heq
    exact bak_index_inj p heq
  have hmk : fsMkdir okOracle (dirname p) st = (.ok (), { st with ctr := st.ctr + 1 }) :=
    fsMkdir_ok okOracle (dirname p) st rfl
  have hwr : writeWithRetry okOracle (p ++ ".tmp") c { st with ctr := st.ctr + 1 } =
      (.ok (), { st with fs := setF st.fs (p ++ ".tmp") c, ctr := st.ctr + 1 + 1 }) :=
    writeWithRetry_first_ok okOracle _ _ _ rfl
  have horig2 : lookupF (setF st.fs (p ++ ".tmp") c) p = some h := by
    rw [lookupF_setF, if_neg (tmp_ne_self p)]
    exact htgt
  obtain ⟨st3, hcb, hctr3, hfs3⟩ :=
    createBackup_exists okOracle p N
      { st with fs := setF st.fs (p ++ ".tmp") c, ctr := st.ctr + 1 + 1 }
      h hclean horig2 rfl rfl
  have hfs3n : st3.fs = setF (rotateLoop okOracle (dirname p) (basenameExt p (extname p))
      (extname p) N N
      { fs := setF st.fs (p ++ ".tmp") c, ctr := st.ctr + 1 + 1 + 1, sleeps := st.sleeps }).fs
      (p ++ ".bak." ++ natToStr 1) h := hfs3
  have htmp3 : lookupF st3.fs (p ++ ".tmp") = some c := by
    rw [hfs3n, lookupF_setF, if_neg (bak_ne_tmp p 1),
      rotateLoop_lookup_other okOracle _ _ _ N (p ++ ".tmp") ?_ N _ (le_refl N)]
    · show lookupF (setF st.fs (p ++ ".tmp") c) (p ++ ".tmp") = some c
      rw [lookupF_setF, if_pos rfl]
    · intro j h1 h2
      rw [hbak j]
      exact (bak_ne_tmp p j).symm
  have hcp := copyWithRetry_first_ok okOracle (p ++ ".tmp") p st3 c htmp3 rfl
  obtain ⟨hrot1, hrotshift⟩ := rotation_full_ok (dirname p) (basenameExt p (extname p))
    (extname p) N hmax hinj
    { fs := setF st.fs (p ++ ".tmp") c, ctr := st.ctr + 1 + 1 + 1, sleeps := st.sleeps }
  refine ⟨{ st3 with fs := setF st3.fs p c, ctr := st3.ctr + 1 }, ?_, ?_, ?_, ?_, ?_⟩
  · simp only [safeWriteAttempt, hmk, hwr, hcb, hcp, if_true]
  · show lookupF (setF st3.fs p c) p = some c
    rw [lookupF_setF, if_pos rfl]
  · show lookupF (setF st3.fs p c) (p ++ ".bak." ++ natToStr 1) = some h
    rw [lookupF_setF, if_neg (fun hh => bak_ne_self p 1 hh.symm), hfs3n,
      lookupF_setF, if_pos rfl]
  · intro j h2 hjN
    show lookupF (setF st3.fs p c) (p ++ ".bak." ++ natToStr j) =
      lookupF st.fs (p ++ ".bak." ++ natToStr (j - 1))
    rw [lookupF_setF, if_neg (fun hh => bak_ne_self p j hh.symm), hfs3n,
      lookupF_setF, if_neg (fun hh => by have := bak_index_inj p hh; omega)]
    rw [← hbak j]
    rw [hrotshift j h2 hjN]
    show lookupF (setF st.fs (p ++ ".tmp") c)
      (bakPathAt (dirname p) (basenameExt p (extname p)) (extname p) (j - 1)) =
      lookupF st.fs (p ++ ".bak." ++ natToStr (j - 1))
    rw [hbak (j - 1), lookupF_setF,
      if_neg (fun hh => bak_ne_tmp p (j - 1) hh.symm)]
  · intro j hjN
    show lookupF (setF st3.fs p c) (p ++ ".bak." ++ natToStr j) =
      lookupF st.fs (p ++ ".bak." ++ natToStr j)
    rw [lookupF_setF, if_neg (fun hh => bak_ne_self p j hh.symm), hfs3n,
      lookupF_setF, if_neg (fun hh => by have := bak_index_inj p hh; omega)]
    rw [← hbak j]
    rw [rotateLoop_lookup_other okOracle _ _ _ N _ ?_ N _ (le_refl N)]
    · show lookupF (setF st.fs (p ++ ".tmp") c)
        (bakPathAt (dirname p) (basenameExt p (extname p)) (extname p) j) =
        lookupF st.fs (bakPathAt (dirname p) (basenameExt p (extname p)) (extname p) j)
      rw [hbak j, lookupF_setF, if_neg (fun hh => bak_ne_tmp p j hh.symm)]
    · intro jj h1 h2 hh
      have := hinj hh
      omega

theorem writeSeq_cons (orc : Oracle) (cwd filePath : String) (options : SafeWriteOptions)
    (c : String) (rest : List String) (ok : Bool) (st : St) :
    writeSeq orc cwd filePath options (c :: rest) (ok, st) =
      writeSeq orc cwd filePath options rest
        (ok && (safeWriteFile orc cwd filePath c options st).1.success,
         (safeWriteFile orc cwd filePath c options st).2) := rfl

theorem safeWriteFile_ok_first (cwd filePath c : String) (options : SafeWriteOptions)
    (st : St)
    (hpass : isWithinRoot cwd (normalizePath cwd filePath)
      (normalizePath cwd options.vaultRoot) = true)
    (hbackup : options.backup ≠ some false)
    (hmiss : lookupF st.fs (normalizePath cwd filePath) = none) :
    (safeWriteFile okOracle cwd filePath c options st).1.success = true ∧
    lookupF (safeWriteFile okOracle cwd filePath c options st).2.fs
      (normalizePath cwd filePath) = some c ∧
    (∀ j, lookupF (safeWriteFile okOracle cwd filePath c options st).2.fs
        (normalizePath cwd filePath ++ ".bak." ++ natToStr j) =
      lookupF st.fs (normalizePath cwd filePath ++ ".bak." ++ natToStr j)) := by
  have hsb : (options.backup != some false) = true := by
    rw [bne_iff_ne]
    exact hbackup
  have hatt := safeWriteAttempt_ok_fresh (normalizePath cwd filePath) c
    (options.maxBackups.getD MAX_BACKUPS) st hmiss
  simp only [safeWriteFile, hpass, Bool.not_true, Bool.false_eq_true, if_false, hsb, hatt]
  refine ⟨trivial, ?_, ?_⟩
  · rw [deleteQuietly_lookup_other okOracle _ _ _ (fun h => tmp_ne_self _ h.symm)]
    show lookupF (setF (setF st.fs (normalizePath cwd filePath ++ ".tmp") c)
      (normalizePath cwd filePath) c) (normalizePath cwd filePath) = some c
    rw [lookupF_setF, if_pos rfl]
  · intro j
    rw [deleteQuietly_lookup_other okOracle _ _ _ (bak_ne_tmp _ j)]
    show lookupF (setF (setF st.fs (normalizePath cwd filePath ++ ".tmp") c)
      (normalizePath cwd filePath) c)
      (normalizePath cwd filePath ++ ".bak." ++ natToStr j) = _
    rw [lookupF_setF, if_neg (fun h => bak_ne_self _ j h.symm),
      lookupF_setF, if_neg (fun h => bak_ne_tmp _ j h.symm)]

theorem safeWriteFile_ok_next (cwd filePath c w : String) (options : SafeWriteOptions)
    (st : St)
    (hclean : IsClean (normalizePath cwd filePath))
    (hpass : isWithinRoot cwd (normalizePath cwd filePath)
      (normalizePath cwd options.vaultRoot) = true)
    (hbackup : options.backup ≠ some false)
    (hN : 1 ≤ options.maxBackups.getD MAX_BACKUPS)
    (htgt : lookupF st.fs (normalizePath cwd filePath) = some w) :
    (safeWriteFile okOracle cwd filePath c options st).1.success = true ∧
    lookupF (safeWriteFile okOracle cwd filePath c options st).2.fs
      (normalizePath cwd filePath) = some c ∧
    lookupF (safeWriteFile okOracle cwd filePath c options st).2.fs
      (normalizePath cwd filePath ++ ".bak." ++ natToStr 1) = some w ∧
    (∀ j, 2 ≤ j → j ≤ options.maxBackups.getD MAX_BACKUPS →
      lookupF (safeWriteFile okOracle cwd filePath c options st).2.fs
        (normalizePath cwd filePath ++ ".bak." ++ natToStr j) =
      lookupF st.fs (normalizePath cwd filePath ++ ".bak." ++ natToStr (j - 1))) ∧
    (∀ j, options.maxBackups.getD MAX_BACKUPS < j →
      lookupF (safeWriteFile okOracle cwd filePath c options st).2.fs
        (normalizePath cwd filePath ++ ".bak." ++ natToStr j) =
      lookupF st.fs (normalizePath cwd filePath ++ ".bak." ++ natToStr j)) := by
  have hsb : (options.backup != some false) = true := by
    rw [bne_iff_ne]
    exact hbackup
  obtain ⟨stA, hatt, htgtA, hbak1A, hmidA, hhighA⟩ := safeWriteAttempt_ok_existing
    (normalizePath cwd filePath) c (options.maxBackups.getD MAX_BACKUPS) st w hN hclean htgt
  simp only [safeWriteFile, hpass, Bool.not_true, Bool.false_eq_true, if_false, hsb, hatt]
  refine ⟨trivial, ?_, ?_, ?_, ?_⟩
  · rw [deleteQuietly_lookup_other okOracle _ _ _ (fun h => tmp_ne_self _ h.symm)]
    exact htgtA
  · rw [deleteQuietly_lookup_other okOracle _ _ _ (bak_ne_tmp _ 1)]
    exact hbak1A
  · intro j h2 hjN
    rw [deleteQuietly_lookup_other okOracle _ _ _ (bak_ne_tmp _ j)]
    exact hmidA j h2 hjN
  · intro j hjN
    rw [deleteQuietly_lookup_other okOracle _ _ _ (bak_ne_tmp _ j)]
    exact hhighA j hjN

theorem writeSeq_backup_inv (cwd filePath : String) (options : SafeWriteOptions)
    (hclean : IsClean (normalizePath cwd filePath))
    (hpass : isWithinRoot cwd (normalizePath cwd filePath)
      (normalizePath cwd options.vaultRoot) = true)
    (hbackup : options.backup ≠ some false)
    (hN : 1 ≤ options.maxBackups.getD MAX_BACKUPS) :
    ∀ (cs ws : List String) (w : String) (st : St),
      lookupF st.fs (normalizePath cwd filePath) = some w →
      (∀ j, 1 ≤ j →
        lookupF st.fs (normalizePath cwd filePath ++ ".bak." ++ natToStr j) =
        if j ≤ options.maxBackups.getD MAX_BACKUPS then (w :: ws)[j]? else none) →
      (writeSeq okOracle cwd filePath options cs (true, st)).1 = true ∧
      lookupF (writeSeq okOracle cwd filePath options cs (true, st)).2.fs
        (normalizePath cwd filePath) = (cs.reverse ++ w :: ws)[0]? ∧
      (∀ j, 1 ≤ j →
        lookupF (writeSeq okOracle cwd filePath options cs (true, st)).2.fs
          (normalizePath cwd filePath ++ ".bak." ++ natToStr j) =
        if j ≤ options.maxBackups.getD MAX_BACKUPS then (cs.reverse ++ w :: ws)[j]? else none) := by
  intro cs
  induction cs with
  | nil =>
    intro ws w st htgt hbaks
    refine ⟨rfl, ?_, hbaks⟩
    rw [List.reverse_nil, List.nil_append]
    show lookupF st.fs (normalizePath cwd filePath) = (w :: ws)[0]?
    rw [List.getElem?_cons_zero]
    exact htgt
  | cons c rest ih =>
    intro ws w st htgt hbaks
    obtain ⟨hsucc, htgtB, hbak1B, hmidB, hhighB⟩ :=
      safeWriteFile_ok_next cwd filePath c w options st hclean hpass hbackup hN htgt
    rw [writeSeq_cons, hsucc, Bool.and_self]
    have hbaksB : ∀ j, 1 ≤ j →
        lookupF (safeWriteFile okOracle cwd filePath c options st).2.fs
          (normalizePath cwd filePath ++ ".bak." ++ natToStr j) =
        if j ≤ options.maxBackups.getD MAX_BACKUPS then (c :: w :: ws)[j]? else none := by
      intro j hj
      obtain ⟨i, rfl⟩ : ∃ i, j = i + 1 := ⟨j - 1, by omega⟩
      rcases Nat.eq_zero_or_pos i with hi0 | hipos
      · subst hi0
        rw [hbak1B, if_pos hN, List.getElem?_cons_succ, List.getElem?_cons_zero]
      · rcases le_or_lt (i + 1) (options.maxBackups.getD MAX_BACKUPS) with hle | hgt
        · rw [hmidB (i + 1) (by omega) hle]
          rw [show i + 1 - 1 = i from rfl]
          rw [hbaks i (by omega), if_pos (by omega), if_pos hle,
            List.getElem?_cons_succ]
        · rw [hhighB (i + 1) hgt, hbaks (i + 1) (by omega),
            if_neg (by omega), if_neg (by omega)]
    have hres := ih (w :: ws) c (safeWriteFile okOracle cwd filePath c options st).2 htgtB hbaksB
    rw [List.reverse_cons, List.append_assoc, List.singleton_append]
    exact hres

/-- C3: backup-chain invariant. For every target path (clean and
within the vault root), every nonempty content sequence and every
`maxBackups = N >= 1`, after `k` successive backup-enabled
`safeWriteFile` calls to that path with no failure injected (the first
creating the file, with no pre-existing backups), every call
succeeded, the target holds the last content written, and for every
slot `j >= 1` the file `<name>.bak.j` holds the content written by the
`j`-th most recent preceding write when `j <= min(k-1, N)` and is
absent otherwise --- so exactly `min(k-1, N)` backups exist, `.bak.1`
holds the content of the immediately preceding write, and (the claim
holding for every prefix of the sequence) at no call boundary do more
than `N` backups exist. -/
theorem C3_backup_chain (cwd filePath c0 : String) (rest : List String)
    (options : SafeWriteOptions) (st0 : St)
    (hclean : IsClean (normalizePath cwd filePath))
    (hpass : isWithinRoot cwd (normalizePath cwd filePath)
      (normalizePath cwd options.vaultRoot) = true)
    (hbackup : options.backup ≠ some false)
    (hN : 1 ≤ options.maxBackups.getD MAX_BACKUPS)
    (hfresh : lookupF st0.fs (normalizePath cwd filePath) = none)
    (hnobak : ∀ j, 1 ≤ j →
      lookupF st0.fs (normalizePath cwd filePath ++ ".bak." ++ natToStr j) = none) :
    (writeSeq okOracle cwd filePath options (c0 :: rest) (true, st0)).1 = true ∧
    lookupF (writeSeq okOracle cwd filePath options (c0 :: rest) (true, st0)).2.fs
      (normalizePath cwd filePath) = (c0 :: rest).reverse[0]? ∧
    (∀ j, 1 ≤ j →
      lookupF (writeSeq okOracle cwd filePath options (c0 :: rest) (true, st0)).2.fs
        (normalizePath cwd filePath ++ ".bak." ++ natToStr j) =
      if j ≤ options.maxBackups.getD MAX_BACKUPS then (c0 :: rest).reverse[j]? else none) := by
  obtain ⟨hsucc1, htgt1, hfr1⟩ :=
    safeWriteFile_ok_first cwd filePath c0 options st0 hpass hbackup hfresh
  rw [writeSeq_cons, hsucc1, Bool.and_self]
  have hbaks1 : ∀ j, 1 ≤ j →
      lookupF (safeWriteFile okOracle cwd filePath c0 options st0).2.fs
        (normalizePath cwd filePath ++ ".bak." ++ natToStr j) =
      if j ≤ options.maxBackups.getD MAX_BACKUPS
        then (c0 :: ([] : List String))[j]? else none := by
    intro j hj
    obtain ⟨i, rfl⟩ : ∃ i, j = i + 1 := ⟨j - 1, by omega⟩
    rw [hfr1 (i + 1), hnobak (i + 1) (by omega), List.getElem?_cons_succ,
      List.getElem?_nil, ite_self]
  have hres := writeSeq_backup_inv cwd filePath options hclean hpass hbackup hN rest [] c0
    (safeWriteFile okOracle cwd filePath c0 options st0).2 htgt1 hbaks1
  rw [List.reverse_cons]
  exact hres

/-- C3 witness: three successive writes `v1`, `v2`, `v3` to
`/vault/x.md` with `maxBackups = 2` all succeed and leave the target
holding `v3`, `.bak.1` holding `v2`, `.bak.2` holding `v1`, and no
`.bak.3`. -/
theorem C3_backup_chain_witness :
    (isWithinRoot "/" (normalizePath "/" "/vault/x.md") (normalizePath "/" "/vault") = true ∧
     c3Opts.backup ≠ some false ∧
     1 ≤ c3Opts.maxBackups.getD MAX_BACKUPS ∧
     lookupF c3St0.fs (normalizePath "/" "/vault/x.md") = none) ∧
    (writeSeq okOracle "/" "/vault/x.md" c3Opts ["v1", "v2", "v3"] (true, c3St0)).1 = true ∧
    lookupF (writeSeq okOracle "/" "/vault/x.md" c3Opts ["v1", "v2", "v3"]
        (true, c3St0)).2.fs (normalizePath "/" "/vault/x.md") = some "v3" ∧
    lookupF (writeSeq okOracle "/" "/vault/x.md" c3Opts ["v1", "v2", "v3"]
        (true, c3St0)).2.fs
      (normalizePath "/" "/vault/x.md" ++ ".bak." ++ natToStr 1) = some "v2" ∧
    lookupF (writeSeq okOracle "/" "/vault/x.md" c3Opts ["v1", "v2", "v3"]
        (true, c3St0)).2.fs
      (normalizePath "/" "/vault/x.md" ++ ".bak." ++ natToStr 2) = some "v1" ∧
    lookupF (writeSeq okOracle "/" "/vault/x.md" c3Opts ["v1", "v2", "v3"]
        (true, c3St0)).2.fs
      (normalizePath "/" "/vault/x.md" ++ ".bak." ++ natToStr 3) = none := by
  have hclean : IsClean (normalizePath "/" "/vault/x.md") := by
    rw [show normalizePath "/" "/vault/x.md" = "/vault/x.md" from by decide]
    refine ⟨[['v', 'a', 'u', 'l', 't'], ['x', '.', 'm', 'd']], by decide, ?_, by decide⟩
    intro s hs
    fin_cases hs <;> exact cleanSeg_of_check _ (by decide) (by decide) (by decide) (by decide)
  have h := C3_backup_chain "/" "/vault/x.md" "v1" ["v2", "v3"] c3Opts c3St0
    hclean (by decide) (by decide) (by decide) rfl (fun j hj => rfl)
  refine ⟨⟨by decide, by decide, by decide, rfl⟩, h.1, ?_, ?_, ?_, ?_⟩
  · rw [h.2.1]
    decide
  · rw [h.2.2 1 (by decide)]
    decide
  · rw [h.2.2 2 (by decide)]
    decide
  · rw [h.2.2 3 (by decide)]
    decide
